import Mathlib

/-!
# Verification of the `glyf`/`gvar` tables of rust-font-tools

A shallow embedding of `src/glyf.rs` and the offset-decoding part of
`src/gvar.rs`, together with proofs of the specified properties.

Machine integers are modelled as `Int`/`Nat` (with explicit `% 2^16` where
the Rust code performs wrapping 16-bit arithmetic); the `f64` values flowing
through `kurbo` (affine transform entries, rectangle coordinates) are
modelled as `Rat`, which is exact for every value these computations
produce; Rust panics (out-of-bounds indexing, `unwrap`) are modelled as
`Option`/`Except` failures.
-/

namespace Glyf

/-- A contour point: integer coordinate pair plus on-curve flag
(`point.rs`, modelled from the spec's data model: `{x: i16, y: i16,
on_curve: bool}`). -/
structure Point where
  x : Int
  y : Int
  on_curve : Bool
deriving DecidableEq, Repr

/-- A 2×3 affine transform, the model of `kurbo::Affine([a,b,c,d,e,f])`.
The entries are rationals: every value the glyf code ever puts in an
affine (integer offsets, 2.14 fixed-point scales, and their products and
sums) is exactly representable, so the `Rat` model agrees with `f64`. -/
structure Affine where
  a : Rat
  b : Rat
  c : Rat
  d : Rat
  e : Rat
  f : Rat
deriving DecidableEq, Repr

/-- Composition of affine maps, exactly `kurbo`'s `Mul for Affine`:
`self * other` applies `other` first, then `self`. -/
def Affine.mul (s o : Affine) : Affine :=
  { a := s.a * o.a + s.c * o.b
    b := s.b * o.a + s.d * o.b
    c := s.a * o.c + s.c * o.d
    d := s.b * o.c + s.d * o.d
    e := s.a * o.e + s.c * o.f + s.e
    f := s.b * o.e + s.d * o.f + s.f }

instance : Mul Affine := ⟨Affine.mul⟩

theorem Affine.mul_def (s o : Affine) : s * o = Affine.mul s o := rfl

/-- The identity affine transform. -/
def Affine.id : Affine := ⟨1, 0, 0, 1, 0, 0⟩

/-- Apply an affine transform to a point `(x, y)`. -/
def Affine.apply (t : Affine) (x y : Rat) : Rat × Rat :=
  (t.a * x + t.c * y + t.e, t.b * x + t.d * y + t.f)

/-- Component flag bits (`ComponentFlags` of `component.rs`), the standard
TrueType values, confirmed by the byte-level test fixtures in `glyf.rs`.
The flag word is modelled as the raw 16-bit value. -/
def ARG_1_AND_2_ARE_WORDS : Nat := 0x0001
def ARGS_ARE_XY_VALUES : Nat := 0x0002
def ROUND_XY_TO_GRID : Nat := 0x0004
def WE_HAVE_A_SCALE : Nat := 0x0008
def MORE_COMPONENTS : Nat := 0x0020
def WE_HAVE_AN_X_AND_Y_SCALE : Nat := 0x0040
def WE_HAVE_A_TWO_BY_TWO : Nat := 0x0080
def WE_HAVE_INSTRUCTIONS : Nat := 0x0100
def USE_MY_METRICS : Nat := 0x0200
def OVERLAP_COMPOUND : Nat := 0x0400

/-- One composite-glyph reference (`component.rs`, modelled from the
spec's data model): target glyph index, affine transform, flag word,
optional point-matching anchor pair. -/
structure Component where
  glyph_index : Nat
  transformation : Affine
  match_points : Option (Nat × Nat)
  flags : Nat
deriving DecidableEq, Repr

/-- `comp.flags.contains(ComponentFlags::USE_MY_METRICS)`. -/
def Component.useMyMetrics (c : Component) : Bool := c.flags.testBit 9

/-- One glyph record (`glyph.rs`, modelled from the spec's data model):
contours or components, overlap flag, raw instruction bytes and the
bounding box. -/
structure Glyph where
  contours : List (List Point)
  components : List Component
  overlap : Bool
  instructions : List Nat
  xMin : Int
  xMax : Int
  yMin : Int
  yMax : Int
deriving DecidableEq, Repr

/-- Modelled from the spec: a `Glyph` is a composite exactly when its
component list is non-empty (`contours` and `components` are mutually
exclusive), which is what `Glyph::has_components` of the missing
`glyph.rs` tests. -/
def Glyph.has_components (g : Glyph) : Bool := !g.components.isEmpty

/-- The glyph with no contours, no components, no instructions and an
all-zero bounding box, as synthesized by `from_rc` for a `None` entry of
the `loca` offset list. -/
def emptyGlyph : Glyph :=
  { contours := [], components := [], overlap := false, instructions := []
    xMax := 0, xMin := 0, yMax := 0, yMin := 0 }

/-- The glyf table: a list of glyph objects (`struct glyf`). -/
structure glyf where
  glyphs : List Glyph
deriving DecidableEq, Repr

/-! ## Composite flattening (`glyf::flat_components`)

The Rust function recurses on the component graph, guarded by
`if depth > 64 { return vec![] }` at function entry.  The recursion is
translated with an explicit fuel argument `fuel = 65 - depth`: fuel `0`
is exactly the `depth > 64` branch, and each recursive call
(`depth + 1` in the source) decrements the fuel.  Out-of-bounds glyph
indexing (`self.glyphs[comp.glyph_index as usize]`), which panics in
Rust, is modelled as `none`. -/

/-- The `for comp in &g.components` loop of `flat_components`,
abstracted over the recursive call `rec` made for a composite
referenced glyph, returning the components accumulated from the
remaining component list. -/
def flatGoF (t : glyf) (rec : Glyph → Option (List Component)) :
    List Component → Option (List Component)
  | [] => some []
  | comp :: rest =>
    match t.glyphs.get? comp.glyph_index with
    | none => none
    | some cg =>
      if cg.has_components then
        match rec cg with
        | none => none
        | some fl =>
          match flatGoF t rec rest with
          | none => none
          | some tail =>
            some ((fl.map fun f =>
              { f with transformation := comp.transformation * f.transformation }) ++ tail)
      else
        match flatGoF t rec rest with
        | none => none
        | some tail => some (comp :: tail)

/-- Body of `flat_components` at a given remaining depth budget:
fuel `0` is the `depth > 64` early return of the empty vector, and each
recursive call (`depth + 1` in the source) spends one unit of fuel. -/
def flatFuel (t : glyf) : Nat → Glyph → Option (List Component)
  | 0, _ => some []
  | Nat.succ f, g => flatGoF t (fun cg => flatFuel t f cg) g.components

/-- The component loop at a given fuel. -/
def flatGo (t : glyf) (fuel : Nat) (comps : List Component) : Option (List Component) :=
  flatGoF t (fun cg => flatFuel t fuel cg) comps

/-- `glyf::flat_components(&self, g, depth)`: all primitive components
instantiated by `g`, transforms pre-composed; `none` models the
out-of-bounds indexing panic. -/
def flat_components (t : glyf) (g : Glyph) (depth : Nat) : Option (List Component) :=
  if 64 < depth then some [] else flatFuel t (65 - depth) g

/-- `glyf::flatten_components(&mut self)`: recompute every composite
glyph's component list against the original table and replace it only
when it differs; `none` models the indexing panic inside
`flat_components`. -/
def flatten_components (t : glyf) : Option glyf := do
  let updated ← t.glyphs.mapM fun g =>
    if g.has_components then do
      let flat ← flat_components t g 0
      if g.components = flat then some g else some { g with components := flat }
    else some g
  some { glyphs := updated }

/-! ## Bounds recomputation (`glyf::recalc_bounds`)

`recalc_bounds` works on `kurbo::Rect` values (`f64` coordinates); the
model uses exact rational coordinates.  The two Rust panic sources —
out-of-bounds `boxes[comp.glyph_index]` indexing and the
`.reduce(..).unwrap()` over an empty component list — are modelled as
distinguishable `Except` errors. -/

/-- A panic inside `recalc_bounds`: either an out-of-bounds glyph-index
lookup, or the `.reduce(|a, b| a.union(b)).unwrap()` evaluated on an
empty component list. -/
inductive RecalcPanic where
  | oobIndex : RecalcPanic
  | emptyReduce : RecalcPanic
deriving DecidableEq, Repr

/-- The model of `kurbo::Rect` (axis-aligned rectangle, coordinates kept
exact as rationals). -/
structure Rect where
  x0 : Rat
  y0 : Rat
  x1 : Rat
  y1 : Rat
deriving DecidableEq, Repr

/-- `kurbo::Rect::union`: smallest rectangle containing both
(pointwise min of the mins, max of the maxes). -/
def Rect.union (r s : Rect) : Rect :=
  { x0 := min r.x0 s.x0, y0 := min r.y0 s.y0
    x1 := max r.x1 s.x1, y1 := max r.y1 s.y1 }

/-- `kurbo::Affine::transform_rect_bbox`: the axis-aligned bounding box
of the images of the four corners of `r` (transform-then-bound). -/
def Affine.transform_rect_bbox (t : Affine) (r : Rect) : Rect :=
  let p00 := t.apply r.x0 r.y0
  let p01 := t.apply r.x0 r.y1
  let p10 := t.apply r.x1 r.y0
  let p11 := t.apply r.x1 r.y1
  { x0 := min (min p00.1 p01.1) (min p10.1 p11.1)
    y0 := min (min p00.2 p01.2) (min p10.2 p11.2)
    x1 := max (max p00.1 p01.1) (max p10.1 p11.1)
    y1 := max (max p00.2 p01.2) (max p10.2 p11.2) }

/-- Truncation toward zero, the semantics of Rust's `as i16` cast from
`f64` (in range); exact on the rational model. -/
def ratTrunc (q : Rat) : Int := Int.tdiv q.num q.den

/-- Modelled from the spec: `Glyph::bounds_rect` of the missing
`glyph.rs` views the stored integer bounding box as a rectangle
`(xMin, yMin)–(xMax, yMax)`. -/
def Glyph.bounds_rect (g : Glyph) : Rect :=
  { x0 := g.xMin, y0 := g.yMin, x1 := g.xMax, y1 := g.yMax }

/-- Modelled from the spec: `Glyph::set_bounds_rect` of the missing
`glyph.rs` stores a rectangle back verbatim into the four integer
bounding-box fields (truncating the `f64` coordinates as `i16`). -/
def Glyph.set_bounds_rect (g : Glyph) (r : Rect) : Glyph :=
  { g with xMin := ratTrunc r.x0, yMin := ratTrunc r.y0
           xMax := ratTrunc r.x1, yMax := ratTrunc r.y1 }

/-- `iter().min()` with `unwrap_or(&0)`. -/
def minOr0 : List Int → Int
  | [] => 0
  | x :: xs => xs.foldl min x

/-- `iter().max()` with `unwrap_or(&0)`. -/
def maxOr0 : List Int → Int
  | [] => 0
  | x :: xs => xs.foldl max x

/-- The simple-glyph pass of `recalc_bounds`: for every non-composite
glyph, set the bounds to the min/max of all contour-point coordinates
(`unwrap_or(&0)` gives the all-zero box for a pointless glyph). -/
def simplePass (t : glyf) : glyf :=
  { glyphs := t.glyphs.map fun g =>
      if g.has_components then g
      else
        let pts := g.contours.flatten
        { g with
          xMin := minOr0 (pts.map Point.x), xMax := maxOr0 (pts.map Point.x)
          yMin := minOr0 (pts.map Point.y), yMax := maxOr0 (pts.map Point.y) } }

/-- The `boxes` vector of `recalc_bounds`: every glyph's current
bounding box, gathered before the composite pass mutates anything. -/
def gatherBoxes (t : glyf) : List Rect := t.glyphs.map Glyph.bounds_rect

/-- `.reduce(|a, b| a.union(b)).unwrap()` over a list of rectangles:
panics (`emptyReduce`) on the empty list. -/
def reduceUnwrap : List Rect → Except RecalcPanic Rect
  | [] => .error .emptyReduce
  | b :: bs => .ok (bs.foldl Rect.union b)

/-- The composite pass of `recalc_bounds` for one glyph: non-composite
glyphs are skipped (`continue`); otherwise the first `USE_MY_METRICS`
component's referenced box is copied (`break`), and if there is none the
bounds are the union of all components' transformed referenced boxes. -/
def compositePassGlyph (boxes : List Rect) (g : Glyph) : Except RecalcPanic Glyph :=
  if !g.has_components then .ok g
  else
    match g.components.find? Component.useMyMetrics with
    | some comp =>
      match boxes.get? comp.glyph_index with
      | none => .error .oobIndex
      | some b => .ok (g.set_bounds_rect b)
    | none => do
      let tboxes ← g.components.mapM fun comp =>
        match boxes.get? comp.glyph_index with
        | none => .error RecalcPanic.oobIndex
        | some b => .ok (comp.transformation.transform_rect_bbox b)
      let newbounds ← reduceUnwrap tboxes
      .ok (g.set_bounds_rect newbounds)

/-- `glyf::recalc_bounds(&mut self)`: flatten, recompute simple-glyph
bounds, gather all boxes, then recompute composite-glyph bounds. -/
def recalc_bounds (t : glyf) : Except RecalcPanic glyf := do
  let t1 ← match flatten_components t with
    | none => Except.error RecalcPanic.oobIndex
    | some t1 => Except.ok t1
  let t2 := simplePass t1
  let boxes := gatherBoxes t2
  let glyphs ← t2.glyphs.mapM (compositePassGlyph boxes)
  .ok { glyphs := glyphs }

/-! ## `gvar` per-glyph data offsets (`GvarVisitor::visit_seq`, lines 44–51) -/

/-- The per-glyph variation-data offset array of `gvar::visit_seq`:
when header flag bit 0 is clear the stored values are the 16-bit
offsets and each is doubled by `(x * 2)` — 16-bit Rust arithmetic,
which wraps modulo 2^16 in release builds (and panics in debug builds)
— before being widened with `.into()`; when bit 0 is set the stored
32-bit offsets are used unchanged. -/
def gvarDataOffsets (flags : Nat) (stored : List Nat) : List Nat :=
  if flags &&& 1 = 0 then stored.map (fun x => x * 2 % 65536) else stored

/-! ## Byte-level primitives

The serialization framework (`otspec`) reads and writes big-endian
integers from a byte buffer; bytes are modelled as natural numbers. -/

/-- Big-endian bytes of a 16-bit unsigned value. -/
def encU16 (n : Nat) : List Nat := [n / 256, n % 256]

/-- Read a big-endian 16-bit unsigned value; `none` is a truncated
buffer (a deserialization error in the source). -/
def readU16 : List Nat → Option (Nat × List Nat)
  | b1 :: b2 :: r => some (b1 * 256 + b2, r)
  | _ => none

/-- Two's-complement 16-bit image of a signed value. -/
def u16ofInt (x : Int) : Nat := (x % 65536).toNat

/-- Signed interpretation of a 16-bit unsigned value. -/
def intOfU16 (n : Nat) : Int := if n < 32768 then (n : Int) else (n : Int) - 65536

/-- Big-endian bytes of a 16-bit signed value. -/
def encI16 (x : Int) : List Nat := encU16 (u16ofInt x)

/-- Read a big-endian 16-bit signed value. -/
def readI16 (bs : List Nat) : Option (Int × List Nat) :=
  (readU16 bs).map fun vr => (intOfU16 vr.1, vr.2)

/-- Signed interpretation of an 8-bit unsigned value. -/
def intOfU8 (n : Nat) : Int := if n < 128 then (n : Int) else (n : Int) - 256

/-- Read a counted array of 16-bit unsigned values. -/
def readU16List : Nat → List Nat → Option (List Nat × List Nat)
  | 0, bs => some ([], bs)
  | n + 1, bs => do
    let (v, r) ← readU16 bs
    let (vs, r') ← readU16List n r
    some (v :: vs, r')

/-- Read a counted run of raw bytes; `none` is a truncated buffer. -/
def readBytes (n : Nat) (bs : List Nat) : Option (List Nat × List Nat) :=
  if bs.length < n then none else some (bs.take n, bs.drop n)

/-! ## Simple-glyph codec

Modelled from the spec (the codec lives in the missing `glyph.rs`):
the wire layout is contour count (`i16`), bounding box (4 × `i16`),
contour end-point indices (`u16` each), instruction length and bytes,
run-length point flags, then the delta-coded X and Y coordinate
streams.  The flag bits are the standard simple-glyph bits, confirmed
by the byte-level test fixture in `glyf.rs`: bit 0 on-curve, bit 1
X-short, bit 2 Y-short, bit 3 repeat, bit 4 X-same-or-positive, bit 5
Y-same-or-positive, bit 6 overlap-simple (first point only). -/

/-- Assemble a simple-glyph flag byte from its bits. -/
def mkFlag (onCurve xShort yShort xBit yBit ov : Bool) : Nat :=
  (if onCurve then 1 else 0) + (if xShort then 2 else 0) + (if yShort then 4 else 0)
  + (if xBit then 16 else 0) + (if yBit then 32 else 0) + (if ov then 64 else 0)

/-- Modelled from the spec: the canonical encoder stores a zero delta
in the "same" bit, a delta of magnitude at most 255 in short form with
the sign bit, and anything else as a two-byte signed delta. -/
def shortB (d : Int) : Bool := decide (d ≠ 0 ∧ d.natAbs ≤ 255)

/-- The same-or-positive flag bit of a canonically encoded delta. -/
def sameOrPosB (d : Int) : Bool := decide (d = 0 ∨ (d.natAbs ≤ 255 ∧ 0 < d))

/-- The coordinate bytes of a canonically encoded delta. -/
def coordBytes (d : Int) : List Nat :=
  if d = 0 then [] else if d.natAbs ≤ 255 then [d.natAbs] else encI16 d

/-- Modelled from the spec: the canonical encoder's per-point streams —
flag bytes (no repeat compression, matching the source's round-trip
test fixture), X coordinate bytes and Y coordinate bytes, with deltas
accumulated across the whole glyph from the previous point `prev`.
`ov` sets the overlap bit, which the encoder re-expands onto the first
point's flag only. -/
def encPoints (ov : Bool) (prev : Int × Int) : List Point → List Nat × List Nat × List Nat
  | [] => ([], [], [])
  | p :: ps =>
    let dx := p.x - prev.1
    let dy := p.y - prev.2
    let (fs, xbs, ybs) := encPoints false (p.x, p.y) ps
    (mkFlag p.on_curve (shortB dx) (shortB dy) (sameOrPosB dx) (sameOrPosB dy) ov :: fs,
     coordBytes dx ++ xbs, coordBytes dy ++ ybs)

/-- Consecutive deltas of a coordinate stream, starting from `prev`. -/
def deltas (prev : Int) : List Int → List Int
  | [] => []
  | x :: xs => (x - prev) :: deltas x xs

/-- Contour end-point indices: running total of the contour lengths,
each minus one. -/
def endsOf : List (List Point) → Nat → List Nat
  | [], _ => []
  | c :: cs, acc => (acc + c.length - 1) :: endsOf cs (acc + c.length)

/-- A signed value representable as an `i16`. -/
def inI16 (x : Int) : Prop := -32768 ≤ x ∧ x < 32768

instance (x : Int) : Decidable (inI16 x) := by unfold inI16; infer_instance

/-- Modelled from the spec: the domain of the canonical simple-glyph
encoder — a simple glyph whose counts fit their fields, whose contours
are all non-empty, whose coordinate deltas are representable, and whose
overlap bit has a first point to live on. -/
def canEncodeSimple (g : Glyph) : Prop :=
  g.components = [] ∧
  (∀ c ∈ g.contours, c ≠ []) ∧
  (g.contours = [] → g.overlap = false) ∧
  g.contours.length < 32768 ∧
  g.contours.flatten.length ≤ 65536 ∧
  g.instructions.length < 65536 ∧
  inI16 g.xMin ∧ inI16 g.xMax ∧ inI16 g.yMin ∧ inI16 g.yMax ∧
  (∀ d ∈ deltas 0 (g.contours.flatten.map Point.x), inI16 d) ∧
  (∀ d ∈ deltas 0 (g.contours.flatten.map Point.y), inI16 d)

instance (g : Glyph) : Decidable (canEncodeSimple g) := by
  unfold canEncodeSimple; infer_instance

/-- Modelled from the spec: the byte string the canonical encoder
produces for a simple glyph. -/
def encodeSimpleBytes (g : Glyph) : List Nat :=
  let pts := g.contours.flatten
  let enc := encPoints g.overlap (0, 0) pts
  encU16 g.contours.length
    ++ encI16 g.xMin ++ encI16 g.yMin ++ encI16 g.xMax ++ encI16 g.yMax
    ++ (endsOf g.contours 0).flatMap encU16
    ++ encU16 g.instructions.length ++ g.instructions
    ++ enc.1 ++ enc.2.1 ++ enc.2.2

/-- Modelled from the spec: the canonical simple-glyph encoder (the
serialization half of the missing `glyph.rs`), defined on canonically
encodable glyphs. -/
def glyphEncode (g : Glyph) : Option (List Nat) :=
  if canEncodeSimple g then some (encodeSimpleBytes g) else none

/-- Modelled from the spec: run-length flag decoding — a flag byte with
bit 3 set carries a repeat count byte and covers that many further
points without more flag bytes (the byte stream drives the recursion). -/
def readFlagsB : List Nat → Nat → Option (List Nat × List Nat)
  | bs, 0 => some ([], bs)
  | [], _ + 1 => none
  | f :: bs, n + 1 =>
    if f.testBit 3 then
      match bs with
      | [] => none
      | rep :: bs' =>
        match readFlagsB bs' (n - rep) with
        | none => none
        | some (fs, r) => some (f :: (List.replicate (min rep n) f ++ fs), r)
    else
      match readFlagsB bs n with
      | none => none
      | some (fs, r) => some (f :: fs, r)

/-- The flag stream for a given point count. -/
def readFlags (n : Nat) (bs : List Nat) : Option (List Nat × List Nat) :=
  readFlagsB bs n

/-- Modelled from the spec: one delta-coded coordinate stream, driven
by the flag list — short one-byte form with sign bit `bSame`, zero
delta when only `bSame` is set, two-byte signed form otherwise.
`bShort`/`bSame` are bits 1/4 for X and bits 2/5 for Y. -/
def readDeltas (bShort bSame : Nat) : List Nat → List Nat → Option (List Int × List Nat)
  | [], bs => some ([], bs)
  | f :: fs, bs =>
    if f.testBit bShort then
      match bs with
      | [] => none
      | b :: bs' => do
        let (ds, r) ← readDeltas bShort bSame fs bs'
        some ((if f.testBit bSame then (b : Int) else -(b : Int)) :: ds, r)
    else if f.testBit bSame then do
      let (ds, r) ← readDeltas bShort bSame fs bs
      some (0 :: ds, r)
    else do
      let (d, bs') ← readI16 bs
      let (ds, r) ← readDeltas bShort bSame fs bs'
      some (d :: ds, r)

/-- Absolute coordinates: cumulative sums of the deltas from `prev`,
never reset at contour boundaries. -/
def accumulate (prev : Int) : List Int → List Int
  | [] => []
  | d :: ds => (prev + d) :: accumulate (prev + d) ds

/-- Zip decoded coordinates and flags back into points (bit 0 of the
flag is the on-curve bit). -/
def mkPoints : List Int → List Int → List Nat → List Point
  | x :: xs, y :: ys, f :: fs => ⟨x, y, f.testBit 0⟩ :: mkPoints xs ys fs
  | _, _, _ => []

/-- Split the glyph-wide point list into contours at the stored
end-point indices (`prev` is the index one past the previous end). -/
def splitByEnds : List Nat → Nat → List Point → List (List Point)
  | [], _, _ => []
  | e :: rest, prev, pts =>
    pts.take (e + 1 - prev) :: splitByEnds rest (e + 1) (pts.drop (e + 1 - prev))

/-- Modelled from the spec: decoding the body of a simple glyph (after
the contour count and bounding box have been read). -/
def decodeSimpleBody (nc : Nat) (xMin yMin xMax yMax : Int) (r : List Nat) :
    Option (Glyph × List Nat) := do
  let (ends, r) ← readU16List nc r
  let npoints := match ends.getLast? with
    | none => 0
    | some e => e + 1
  let (ilen, r) ← readU16 r
  let (instr, r) ← readBytes ilen r
  let (flags, r) ← readFlags npoints r
  let (dxs, r) ← readDeltas 1 4 flags r
  let (dys, r) ← readDeltas 2 5 flags r
  let pts := mkPoints (accumulate 0 dxs) (accumulate 0 dys) flags
  let overlap := match flags.head? with
    | none => false
    | some f => f.testBit 6
  some ({ contours := splitByEnds ends 0 pts, components := [], overlap := overlap
          instructions := instr, xMin := xMin, xMax := xMax, yMin := yMin, yMax := yMax }, r)

/-- A 2.14 fixed-point value: the raw 16-bit signed integer divided by
16384. -/
def f2dot14 (raw : Int) : Rat := (raw : Rat) / 16384

/-- Modelled from the spec: decoding one component record — flag word,
glyph index, the two args (words or bytes; XY offsets or point-matching
indices), then one of the mutually exclusive scale representations. -/
def readComponent (bs : List Nat) : Option (Component × List Nat) := do
  let (flags, r) ← readU16 bs
  let (gid, r) ← readU16 r
  let (arg1, arg2, r) ←
    if flags.testBit 0 then do
      let (a1, r') ← readI16 r
      let (a2, r'') ← readI16 r'
      some (a1, a2, r'')
    else
      match r with
      | b1 :: b2 :: r' =>
        if flags.testBit 1 then some (intOfU8 b1, intOfU8 b2, r')
        else some ((b1 : Int), (b2 : Int), r')
      | _ => none
  let (xy, mp) :=
    if flags.testBit 1 then ((arg1, arg2), none)
    else ((0, 0), some (arg1.toNat, arg2.toNat))
  let (sc, r) ←
    if flags.testBit 3 then do
      let (s, r') ← readI16 r
      some ((f2dot14 s, (0 : Rat), (0 : Rat), f2dot14 s), r')
    else if flags.testBit 6 then do
      let (sx, r') ← readI16 r
      let (sy, r'') ← readI16 r'
      some ((f2dot14 sx, (0 : Rat), (0 : Rat), f2dot14 sy), r'')
    else if flags.testBit 7 then do
      let (a, r1) ← readI16 r
      let (b, r2) ← readI16 r1
      let (c, r3) ← readI16 r2
      let (d, r4) ← readI16 r3
      some ((f2dot14 a, f2dot14 b, f2dot14 c, f2dot14 d), r4)
    else some (((1 : Rat), (0 : Rat), (0 : Rat), (1 : Rat)), r)
  some ({ glyph_index := gid
          transformation :=
            { a := sc.1, b := sc.2.1, c := sc.2.2.1, d := sc.2.2.2
              e := (xy.1 : Rat), f := (xy.2 : Rat) }
          match_points := mp, flags := flags }, r)

/-- Modelled from the spec: the component list, terminated by a clear
`MORE_COMPONENTS` flag; the fuel argument (instantiated with the buffer
length) only discharges termination, since every record consumes at
least one byte. -/
def readComponents : Nat → List Nat → Option (List Component × Bool × List Nat)
  | 0, _ => none
  | fuel + 1, bs => do
    let (comp, r) ← readComponent bs
    let haveInstr := comp.flags.testBit 8
    if comp.flags.testBit 5 then do
      let (comps, hi, r') ← readComponents fuel r
      some (comp :: comps, haveInstr || hi, r')
    else
      some ([comp], haveInstr, r)

/-- Modelled from the spec: decoding the body of a composite glyph —
the component list, then instruction bytes when any component set
`WE_HAVE_INSTRUCTIONS`; the overlap bit is normalized from
`OVERLAP_COMPOUND` on the first component. -/
def decodeCompositeBody (xMin yMin xMax yMax : Int) (r : List Nat) :
    Option (Glyph × List Nat) := do
  let (comps, haveInstr, r) ← readComponents (r.length + 1) r
  let (instr, r) ←
    if haveInstr then do
      let (ilen, r') ← readU16 r
      readBytes ilen r'
    else some ([], r)
  let overlap := match comps.head? with
    | none => false
    | some c => c.flags.testBit 10
  some ({ contours := [], components := comps, overlap := overlap
          instructions := instr, xMin := xMin, xMax := xMax, yMin := yMin, yMax := yMax }, r)

/-- Modelled from the spec: one glyph record — contour count and
bounding box, then the simple or composite body depending on the sign
of the contour count. -/
def glyphDecodeO (bs : List Nat) : Option (Glyph × List Nat) := do
  let (ncRaw, r) ← readU16 bs
  let (xMin, r) ← readI16 r
  let (yMin, r) ← readI16 r
  let (xMax, r) ← readI16 r
  let (yMax, r) ← readI16 r
  if intOfU16 ncRaw < 0 then decodeCompositeBody xMin yMin xMax yMax r
  else decodeSimpleBody ncRaw xMin yMin xMax yMax r

/-- The glyph deserializer (`c.de()` in `from_rc`), with truncation and
malformation surfaced as a deserialization error. -/
def glyphDecode (bs : List Nat) : Except String (Glyph × List Nat) :=
  match glyphDecodeO bs with
  | some gr => .ok gr
  | none => .error "a glyph record"

/-! ## Table construction (`glyf::from_rc` / `glyf::from_bytes`)

The source saves the reader cursor, seeks to each `loca` offset,
decodes one glyph and restores the cursor; since decoding is a pure
function of buffer and offset, the model addresses the buffer by
offset directly. -/

/-- The glyph list built by `from_rc`: one glyph per `loca` entry, an
empty glyph for `None`, a decoded glyph for `Some(offset)`; a decode
failure aborts the table (`?` in the source). -/
def from_rcGlyphs (data : List Nat) : List (Option Nat) → Except String (List Glyph)
  | [] => .ok []
  | none :: rest => do
    let gs ← from_rcGlyphs data rest
    .ok (emptyGlyph :: gs)
  | some off :: rest => do
    let g ← glyphDecode (data.drop off)
    let gs ← from_rcGlyphs data rest
    .ok (g.1 :: gs)

/-- `glyf::from_rc`. -/
def from_rc (data : List Nat) (loca_offsets : List (Option Nat)) : Except String glyf :=
  (from_rcGlyphs data loca_offsets).map glyf.mk

/-- `glyf::from_bytes`. -/
def from_bytes (c : List Nat) (loca_offsets : List (Option Nat)) : Except String glyf :=
  from_rc c loca_offsets

/-! ## Lemmas about composite flattening -/

theorem flatFuel_zero (t : glyf) (g : Glyph) : flatFuel t 0 g = some [] := rfl

theorem flatFuel_succ (t : glyf) (f : Nat) (g : Glyph) :
    flatFuel t (f + 1) g = flatGo t f g.components := rfl

theorem flatGo_nil (t : glyf) (fuel : Nat) : flatGo t fuel [] = some [] := rfl

theorem flatGo_cons (t : glyf) (fuel : Nat) (comp : Component) (rest : List Component) :
    flatGo t fuel (comp :: rest) =
      match t.glyphs.get? comp.glyph_index with
      | none => none
      | some cg =>
        if cg.has_components then
          match flatFuel t fuel cg with
          | none => none
          | some fl =>
            match flatGo t fuel rest with
            | none => none
            | some tail =>
              some ((fl.map fun f =>
                { f with transformation := comp.transformation * f.transformation }) ++ tail)
        else
          match flatGo t fuel rest with
          | none => none
          | some tail => some (comp :: tail) := rfl

/-- In an all-composite table (as a component cycle forces along every
branch), the loop body always recurses and every branch bottoms out in
the depth guard, so the result is the empty list at every fuel. -/
theorem flatGo_all_composite (t : glyf)
    (ht : ∀ g' ∈ t.glyphs, g'.components ≠ [])
    (hb : ∀ g' ∈ t.glyphs, ∀ c ∈ g'.components, c.glyph_index < t.glyphs.length) :
    ∀ fuel comps, (∀ c ∈ comps, c.glyph_index < t.glyphs.length) →
      flatGo t fuel comps = some [] := by
  intro fuel
  induction fuel with
  | zero =>
    intro comps hc
    induction comps with
    | nil => exact flatGo_nil t 0
    | cons comp rest ih =>
      have hlt := hc comp (List.mem_cons_self _ _)
      cases hcg : t.glyphs.get? comp.glyph_index with
      | none => rw [List.get?_eq_none] at hcg; omega
      | some cg =>
        have hmem : cg ∈ t.glyphs := List.get?_mem hcg
        have hcomp : cg.has_components = true := by
          simp [Glyph.has_components, List.isEmpty_iff, ht cg hmem]
        rw [flatGo_cons, hcg]
        simp only [hcomp, if_true, flatFuel_zero,
          ih (fun c hc' => hc c (List.mem_cons_of_mem _ hc'))]
        simp
  | succ f ihf =>
    intro comps hc
    induction comps with
    | nil => exact flatGo_nil t (f + 1)
    | cons comp rest ih =>
      have hlt := hc comp (List.mem_cons_self _ _)
      cases hcg : t.glyphs.get? comp.glyph_index with
      | none => rw [List.get?_eq_none] at hcg; omega
      | some cg =>
        have hmem : cg ∈ t.glyphs := List.get?_mem hcg
        have hcomp : cg.has_components = true := by
          simp [Glyph.has_components, List.isEmpty_iff, ht cg hmem]
        rw [flatGo_cons, hcg]
        simp only [hcomp, if_true, flatFuel_succ,
          ihf cg.components (hb cg hmem),
          ih (fun c hc' => hc c (List.mem_cons_of_mem _ hc'))]
        simp

/-- C2: `flat_components` terminates for every table and glyph (it is a
total function of the model); a call whose depth exceeds 64 returns the
empty component list for that branch, and in a table whose reference
graph forces every branch into further composites (e.g. a cycle), the
whole flattening of a glyph with in-range indices returns the empty
list instead of recursing unboundedly, crashing, or failing. -/
theorem flat_components_depth_cap (t : glyf) (g : Glyph) (d : Nat) :
    (64 < d → flat_components t g d = some []) ∧
    ((∀ g' ∈ t.glyphs, g'.components ≠ []) →
     (∀ g' ∈ t.glyphs, ∀ c ∈ g'.components, c.glyph_index < t.glyphs.length) →
     (∀ c ∈ g.components, c.glyph_index < t.glyphs.length) →
     flat_components t g d = some []) := by
  constructor
  · intro hd
    unfold flat_components
    rw [if_pos hd]
  · intro ht hb hc
    unfold flat_components
    split
    · rfl
    · cases hf : 65 - d with
      | zero => exact flatFuel_zero t g
      | succ f => rw [flatFuel_succ]; exact flatGo_all_composite t ht hb f g.components hc

/-- Glyph A of the synthetic component cycle: references glyph 1. -/
def cycA : Glyph :=
  { emptyGlyph with components := [⟨1, Affine.id, none, MORE_COMPONENTS⟩] }

/-- Glyph B of the synthetic component cycle: references glyph 0. -/
def cycB : Glyph :=
  { emptyGlyph with components := [⟨0, Affine.id, none, 0⟩] }

/-- A table whose component graph is the cycle A → B → A. -/
def cycTable : glyf := ⟨[cycA, cycB]⟩

/-- Witness for C2: on the concrete cyclic table, a branch past depth 64
returns the empty list, and flattening glyph A from depth 0 terminates
with the empty component list. -/
theorem flat_components_depth_cap_witness :
    flat_components cycTable cycA 65 = some [] ∧
    flat_components cycTable cycA 0 = some [] :=
  ⟨(flat_components_depth_cap cycTable cycA 65).1 (by decide),
   (flat_components_depth_cap cycTable cycA 0).2
     (by decide) (by decide) (by decide)⟩

/-- C4: one step of `flat_components` below the depth cap: the head
component `c` contributes its flattened child list with each
transformation replaced by `c.transformation * f.transformation`
(parent times child) when the referenced glyph `cg` is composite, and
contributes `c` unchanged when `cg` is simple; the remaining components
contribute after it. -/
theorem flat_components_parent_times_child (t : glyf) (g cg : Glyph) (c : Component)
    (cs fs rest : List Component) (d : Nat)
    (hg : g.components = c :: cs) (hd : d ≤ 64)
    (hcg : t.glyphs.get? c.glyph_index = some cg)
    (hfs : flat_components t cg (d + 1) = some fs)
    (hrest : flat_components t { g with components := cs } d = some rest) :
    flat_components t g d = some
      ((if cg.has_components then
          fs.map fun f => { f with transformation := c.transformation * f.transformation }
        else [c]) ++ rest) := by
  have h65 : 65 - d = (64 - d) + 1 := by omega
  have hnot : ¬ 64 < d := by omega
  have hfs' : flatFuel t (64 - d) cg = some fs := by
    unfold flat_components at hfs
    split at hfs
    · rename_i hcond
      injection hfs with hfs
      subst hfs
      have h0 : 64 - d = 0 := by omega
      rw [h0]
      exact flatFuel_zero t cg
    · have : 65 - (d + 1) = 64 - d := by omega
      rwa [this] at hfs
  have hrest' : flatGo t (64 - d) cs = some rest := by
    unfold flat_components at hrest
    rw [if_neg hnot, h65, flatFuel_succ] at hrest
    exact hrest
  unfold flat_components
  rw [if_neg hnot, h65, flatFuel_succ, hg, flatGo_cons, hcg]
  cases hhc : cg.has_components with
  | true => simp [hhc, hfs', hrest']
  | false => simp [hhc, hrest']

/-- The simple base glyph of the C4 witness table. -/
def w4g0 : Glyph := { emptyGlyph with contours := [[⟨1, 2, true⟩]] }

/-- The inner composite of the C4 witness table: glyph 0 translated by
(10, 20). -/
def w4g1 : Glyph := { emptyGlyph with components := [⟨0, ⟨1, 0, 0, 1, 10, 20⟩, none, 0⟩] }

/-- The outer composite of the C4 witness table: glyph 1 scaled by 2. -/
def w4g2 : Glyph := { emptyGlyph with components := [⟨1, ⟨2, 0, 0, 2, 0, 0⟩, none, 0⟩] }

/-- The three-glyph table of the C4 witness. -/
def w4table : glyf := ⟨[w4g0, w4g1, w4g2]⟩

/-- Witness for C4: on the concrete nested-composite table, the
flattened component of the outer composite carries the
parent-times-child composed transformation (scale 2 around the
translation: offset (20, 40)). -/
theorem flat_components_parent_times_child_witness :
    flat_components w4table w4g2 0 = some [⟨0, ⟨2, 0, 0, 2, 20, 40⟩, none, 0⟩] := by
  have h := flat_components_parent_times_child w4table w4g2 w4g1
    ⟨1, ⟨2, 0, 0, 2, 0, 0⟩, none, 0⟩ [] [⟨0, ⟨1, 0, 0, 1, 10, 20⟩, none, 0⟩] [] 0
    (by decide) (by omega) (by decide) (by decide) (by decide)
  rw [h]
  norm_num [w4g1, emptyGlyph, Glyph.has_components, Affine.mul_def, Affine.mul,
    Component.mk.injEq, Affine.mk.injEq]

/-! ## Helper lemmas: `mapM` over `Option` and `Except`, folded min/max -/

theorem mapM_option_spec {α β : Type} (f : α → Option β) :
    ∀ (l : List α) (l' : List β), l.mapM f = some l' →
      l'.length = l.length ∧
      ∀ i a, l.get? i = some a → ∃ b, f a = some b ∧ l'.get? i = some b := by
  intro l
  induction l with
  | nil =>
    intro l' h
    simp only [List.mapM_nil, pure, Option.some.injEq] at h
    subst h
    exact ⟨rfl, by intro i a ha; simp at ha⟩
  | cons a as ih =>
    intro l' h
    rw [List.mapM_cons] at h
    cases hfa : f a with
    | none => rw [hfa] at h; simp at h
    | some b =>
      rw [hfa] at h
      cases hrest : as.mapM f with
      | none => rw [hrest] at h; simp at h
      | some bs =>
        rw [hrest] at h
        simp only [Option.bind_some, Option.pure_def, Option.bind_eq_bind,
          Option.some_bind, Option.some.injEq] at h
        subst h
        obtain ⟨hlen, hidx⟩ := ih bs hrest
        refine ⟨by simp [hlen], ?_⟩
        intro i a' ha'
        cases i with
        | zero =>
          simp only [List.get?_cons_zero, Option.some.injEq] at ha'
          subst ha'
          exact ⟨b, hfa, rfl⟩
        | succ n =>
          simp only [List.get?_cons_succ] at ha' ⊢
          exact hidx n a' ha'

theorem mapM_option_total {α β : Type} (f : α → Option β) :
    ∀ l : List α, (∀ a ∈ l, ∃ b, f a = some b) → ∃ l', l.mapM f = some l' := by
  intro l
  induction l with
  | nil => exact fun _ => ⟨[], rfl⟩
  | cons a as ih =>
    intro h
    obtain ⟨b, hb⟩ := h a (List.mem_cons_self _ _)
    obtain ⟨bs, hbs⟩ := ih fun a' ha' => h a' (List.mem_cons_of_mem _ ha')
    exact ⟨b :: bs, by rw [List.mapM_cons, hb, hbs]; rfl⟩

theorem mapM_except_spec {ε α β : Type} (f : α → Except ε β) :
    ∀ (l : List α) (l' : List β), l.mapM f = .ok l' →
      l'.length = l.length ∧
      ∀ i a, l.get? i = some a → ∃ b, f a = .ok b ∧ l'.get? i = some b := by
  intro l
  induction l with
  | nil =>
    intro l' h
    simp only [List.mapM_nil, pure, Except.pure, Except.ok.injEq] at h
    subst h
    exact ⟨rfl, by intro i a ha; simp at ha⟩
  | cons a as ih =>
    intro l' h
    rw [List.mapM_cons] at h
    cases hfa : f a with
    | error e => rw [hfa] at h; simp [Bind.bind, Except.bind] at h
    | ok b =>
      rw [hfa] at h
      cases hrest : as.mapM f with
      | error e =>
        rw [hrest] at h
        simp [Bind.bind, Except.bind, pure, Except.pure] at h
      | ok bs =>
        rw [hrest] at h
        simp only [Bind.bind, Except.bind, pure, Except.pure, Except.ok.injEq] at h
        subst h
        obtain ⟨hlen, hidx⟩ := ih bs hrest
        refine ⟨by simp [hlen], ?_⟩
        intro i a' ha'
        cases i with
        | zero =>
          simp only [List.get?_cons_zero, Option.some.injEq] at ha'
          subst ha'
          exact ⟨b, hfa, rfl⟩
        | succ n =>
          simp only [List.get?_cons_succ] at ha' ⊢
          exact hidx n a' ha'

theorem mapM_except_total {ε α β : Type} (f : α → Except ε β) :
    ∀ l : List α, (∀ a ∈ l, ∃ b, f a = .ok b) → ∃ l', l.mapM f = .ok l' := by
  intro l
  induction l with
  | nil => exact fun _ => ⟨[], rfl⟩
  | cons a as ih =>
    intro h
    obtain ⟨b, hb⟩ := h a (List.mem_cons_self _ _)
    obtain ⟨bs, hbs⟩ := ih fun a' ha' => h a' (List.mem_cons_of_mem _ ha')
    refine ⟨b :: bs, ?_⟩
    rw [List.mapM_cons, hb, hbs]
    rfl

theorem mapM_except_error_mem {ε α β : Type} (f : α → Except ε β) :
    ∀ (l : List α) (e : ε), l.mapM f = .error e → ∃ a ∈ l, f a = .error e := by
  intro l
  induction l with
  | nil =>
    intro e h
    rw [List.mapM_nil] at h
    simp only [pure, Except.pure] at h
    exact Except.noConfusion h
  | cons a as ih =>
    intro e h
    rw [List.mapM_cons] at h
    cases hfa : f a with
    | error e' =>
      rw [hfa] at h
      simp only [Bind.bind, Except.bind, Except.error.injEq] at h
      subst h
      exact ⟨a, List.mem_cons_self _ _, hfa⟩
    | ok b =>
      rw [hfa] at h
      cases hrest : as.mapM f with
      | error e' =>
        rw [hrest] at h
        simp only [Bind.bind, Except.bind, Except.error.injEq] at h
        subst h
        obtain ⟨a', ha', hfa'⟩ := ih e' hrest
        exact ⟨a', List.mem_cons_of_mem _ ha', hfa'⟩
      | ok bs =>
        rw [hrest] at h
        simp [Bind.bind, Except.bind, pure, Except.pure] at h

theorem foldl_min_mem (xs : List Int) : ∀ x : Int, xs.foldl min x ∈ x :: xs := by
  induction xs with
  | nil => intro x; simp
  | cons y ys ih =>
    intro x
    rw [List.foldl_cons]
    rcases List.mem_cons.mp (ih (min x y)) with h | h
    · rcases min_choice x y with hm | hm <;> rw [h, hm] <;> simp
    · simp only [List.mem_cons]
      right; right
      exact h

theorem foldl_min_le (xs : List Int) : ∀ x : Int, ∀ y ∈ x :: xs, xs.foldl min x ≤ y := by
  induction xs with
  | nil =>
    intro x y hy
    rw [List.foldl_nil]
    rcases List.mem_cons.mp hy with rfl | h
    · exact le_refl _
    · exact absurd h (List.not_mem_nil _)
  | cons z zs ih =>
    intro x y hy
    rw [List.foldl_cons]
    have hhead : zs.foldl min (min x z) ≤ min x z :=
      ih (min x z) (min x z) (List.mem_cons_self _ _)
    rcases List.mem_cons.mp hy with rfl | hy'
    · exact le_trans hhead (min_le_left _ _)
    · rcases List.mem_cons.mp hy' with rfl | hy''
      · exact le_trans hhead (min_le_right _ _)
      · exact ih (min x z) y (List.mem_cons_of_mem _ hy'')

theorem foldl_max_mem (xs : List Int) : ∀ x : Int, xs.foldl max x ∈ x :: xs := by
  induction xs with
  | nil => intro x; simp
  | cons y ys ih =>
    intro x
    rw [List.foldl_cons]
    rcases List.mem_cons.mp (ih (max x y)) with h | h
    · rcases max_choice x y with hm | hm <;> rw [h, hm] <;> simp
    · simp only [List.mem_cons]
      right; right
      exact h

theorem le_foldl_max (xs : List Int) : ∀ x : Int, ∀ y ∈ x :: xs, y ≤ xs.foldl max x := by
  induction xs with
  | nil =>
    intro x y hy
    rw [List.foldl_nil]
    rcases List.mem_cons.mp hy with rfl | h
    · exact le_refl _
    · exact absurd h (List.not_mem_nil _)
  | cons z zs ih =>
    intro x y hy
    rw [List.foldl_cons]
    have hhead : max x z ≤ zs.foldl max (max x z) :=
      ih (max x z) (max x z) (List.mem_cons_self _ _)
    rcases List.mem_cons.mp hy with rfl | hy'
    · exact le_trans (le_max_left _ _) hhead
    · rcases List.mem_cons.mp hy' with rfl | hy''
      · exact le_trans (le_max_right _ _) hhead
      · exact ih (max x z) y (List.mem_cons_of_mem _ hy'')

/-! ## The unwrap in the composite-bounds reduce (`recalc_bounds`) -/

/-- Counterexample for C8: evaluating the composite-bounds reduce on an
empty component list is the unchecked-`unwrap` panic — there is no
"composite glyph declares zero components" decode-time error anywhere
in the code, at decode time or otherwise. -/
theorem reduceUnwrap_empty_is_unwrap_panic :
    reduceUnwrap ([] : List Rect) = .error RecalcPanic.emptyReduce := rfl

/-- The composite pass on one glyph never fails with the empty-reduce
panic: the pass skips glyphs without components, so the reduce always
sees a non-empty list. -/
theorem compositePassGlyph_ne_emptyReduce (boxes : List Rect) (g : Glyph) :
    compositePassGlyph boxes g ≠ .error .emptyReduce := by
  intro h
  unfold compositePassGlyph at h
  cases hc : g.has_components with
  | false => simp [hc] at h
  | true =>
    simp only [hc, Bool.not_true, Bool.false_eq_true, if_false] at h
    split at h
    · split at h
      · injection h with h'
        exact RecalcPanic.noConfusion h'
      · exact Except.noConfusion h
    · cases hmm : g.components.mapM (fun comp =>
          match boxes.get? comp.glyph_index with
          | none => Except.error RecalcPanic.oobIndex
          | some b => .ok (comp.transformation.transform_rect_bbox b)) with
      | error e =>
        rw [hmm] at h
        simp only [Bind.bind, Except.bind] at h
        injection h with h'
        subst h'
        obtain ⟨a, _, hfa⟩ := mapM_except_error_mem _ _ _ hmm
        cases hbox : boxes.get? a.glyph_index <;> rw [hbox] at hfa
        · injection hfa with h''
          exact RecalcPanic.noConfusion h''
        · simp at hfa
      | ok tb =>
        rw [hmm] at h
        simp only [Bind.bind, Except.bind] at h
        have hlen := (mapM_except_spec _ _ _ hmm).1
        have hne : g.components ≠ [] := by
          intro hnil
          simp [Glyph.has_components, hnil] at hc
        cases tb with
        | nil =>
          rw [List.length_nil] at hlen
          exact hne (List.eq_nil_of_length_eq_zero hlen.symm)
        | cons b bs => simp [reduceUnwrap] at h

/-- C8 (amended): `recalc_bounds` never panics through the
`.reduce(..).unwrap()` over an empty component list, for any table at
all: the composite pass only reaches the reduce for glyphs whose
component list is non-empty.  (No explicit decode-time error for "zero
components" exists; the only other failure is the out-of-bounds
indexing panic.) -/
theorem recalc_bounds_reduce_never_panics (t : glyf) :
    recalc_bounds t ≠ .error .emptyReduce := by
  intro h
  unfold recalc_bounds at h
  cases hft : flatten_components t with
  | none =>
    rw [hft] at h
    simp only [Bind.bind, Except.bind] at h
    injection h with h'
    exact RecalcPanic.noConfusion h'
  | some t1 =>
    rw [hft] at h
    simp only [Bind.bind, Except.bind] at h
    cases hmm : (simplePass t1).glyphs.mapM
        (compositePassGlyph (gatherBoxes (simplePass t1))) with
    | error e =>
      rw [hmm] at h
      injection h with h'
      subst h'
      obtain ⟨g, _, hg⟩ := mapM_except_error_mem _ _ _ hmm
      exact compositePassGlyph_ne_emptyReduce _ _ hg
    | ok gs => rw [hmm] at h; simp at h

/-! ## In-bounds indexing (C10) -/

/-- Under table-wide in-bounds component indices, the flattening loop
never hits the out-of-bounds panic, and every component it returns
still carries an in-bounds glyph index. -/
theorem flatGo_total (t : glyf)
    (hb : ∀ g ∈ t.glyphs, ∀ c ∈ g.components, c.glyph_index < t.glyphs.length) :
    ∀ fuel comps, (∀ c ∈ comps, c.glyph_index < t.glyphs.length) →
      ∃ out, flatGo t fuel comps = some out ∧
        ∀ c' ∈ out, c'.glyph_index < t.glyphs.length := by
  intro fuel
  induction fuel with
  | zero =>
    intro comps hc
    induction comps with
    | nil => exact ⟨[], flatGo_nil t 0, by simp⟩
    | cons comp rest ih =>
      have hlt := hc comp (List.mem_cons_self _ _)
      obtain ⟨tail, htail, htailb⟩ := ih fun c hc' => hc c (List.mem_cons_of_mem _ hc')
      cases hcg : t.glyphs.get? comp.glyph_index with
      | none => rw [List.get?_eq_none] at hcg; omega
      | some cg =>
        cases hhc : cg.has_components with
        | true =>
          refine ⟨tail, ?_, htailb⟩
          rw [flatGo_cons, hcg]
          simp [hhc, flatFuel_zero, htail]
        | false =>
          refine ⟨comp :: tail, ?_, ?_⟩
          · rw [flatGo_cons, hcg]
            simp [hhc, htail]
          · intro c' hc'
            rcases List.mem_cons.mp hc' with rfl | hc''
            · exact hlt
            · exact htailb c' hc''
  | succ f ihf =>
    intro comps hc
    induction comps with
    | nil => exact ⟨[], flatGo_nil t (f + 1), by simp⟩
    | cons comp rest ih =>
      have hlt := hc comp (List.mem_cons_self _ _)
      obtain ⟨tail, htail, htailb⟩ := ih fun c hc' => hc c (List.mem_cons_of_mem _ hc')
      cases hcg : t.glyphs.get? comp.glyph_index with
      | none => rw [List.get?_eq_none] at hcg; omega
      | some cg =>
        have hmem : cg ∈ t.glyphs := List.get?_mem hcg
        cases hhc : cg.has_components with
        | true =>
          obtain ⟨fl, hfl, hflb⟩ := ihf cg.components (hb cg hmem)
          refine ⟨(fl.map fun f' =>
            { f' with transformation := comp.transformation * f'.transformation }) ++ tail,
            ?_, ?_⟩
          · rw [flatGo_cons, hcg]
            simp [hhc, flatFuel_succ, hfl, htail]
          · intro c' hc'
            rcases List.mem_append.mp hc' with hm | hm
            · obtain ⟨f', hf', rfl⟩ := List.mem_map.mp hm
              exact hflb f' hf'
            · exact htailb c' hm
        | false =>
          refine ⟨comp :: tail, ?_, ?_⟩
          · rw [flatGo_cons, hcg]
            simp [hhc, htail]
          · intro c' hc'
            rcases List.mem_cons.mp hc' with rfl | hc''
            · exact hlt
            · exact htailb c' hc''

/-- `flat_components` succeeds at any depth under table-wide in-bounds
indices, and its output indices stay in bounds. -/
theorem flat_components_total (t : glyf)
    (hb : ∀ g ∈ t.glyphs, ∀ c ∈ g.components, c.glyph_index < t.glyphs.length)
    (g : Glyph) (hg : ∀ c ∈ g.components, c.glyph_index < t.glyphs.length) (d : Nat) :
    ∃ out, flat_components t g d = some out ∧
      ∀ c' ∈ out, c'.glyph_index < t.glyphs.length := by
  unfold flat_components
  split
  · exact ⟨[], rfl, by simp⟩
  · cases hf : 65 - d with
    | zero => exact ⟨[], flatFuel_zero t g, by simp⟩
    | succ f =>
      rw [flatFuel_succ]
      exact flatGo_total t hb f g.components hg

/-- `flatten_components` succeeds under table-wide in-bounds indices,
preserving the glyph count and keeping all component indices in
bounds. -/
theorem flatten_components_total (t : glyf)
    (hb : ∀ g ∈ t.glyphs, ∀ c ∈ g.components, c.glyph_index < t.glyphs.length) :
    ∃ t1, flatten_components t = some t1 ∧ t1.glyphs.length = t.glyphs.length ∧
      ∀ g1 ∈ t1.glyphs, ∀ c ∈ g1.components, c.glyph_index < t.glyphs.length := by
  have htot : ∀ g ∈ t.glyphs, ∃ b,
      (if g.has_components then do
        let flat ← flat_components t g 0
        if g.components = flat then some g else some { g with components := flat }
      else some g) = some b ∧ ∀ c ∈ b.components, c.glyph_index < t.glyphs.length := by
    intro g hg
    cases hhc : g.has_components with
    | false => exact ⟨g, by simp, hb g hg⟩
    | true =>
      obtain ⟨fl, hfl, hflb⟩ := flat_components_total t hb g (hb g hg) 0
      by_cases heq : g.components = fl
      · exact ⟨g, by simp [hfl, heq], hb g hg⟩
      · exact ⟨{ g with components := fl }, by simp [hfl, heq], hflb⟩
  obtain ⟨updated, hupd⟩ := mapM_option_total _ t.glyphs fun g hg => ⟨(htot g hg).choose,
    (htot g hg).choose_spec.1⟩
  refine ⟨⟨updated⟩, ?_, ?_, ?_⟩
  · unfold flatten_components
    rw [hupd]
    rfl
  · exact (mapM_option_spec _ _ _ hupd).1
  · intro g1 hg1 c hc
    have hg1' : g1 ∈ updated := hg1
    obtain ⟨i, hi⟩ := List.mem_iff_get?.mp hg1'
    have hlen := (mapM_option_spec _ _ _ hupd).1
    have hil : i < t.glyphs.length := by
      have h2 : i < updated.length := by
        by_contra hcon
        rw [List.get?_eq_none.mpr (by omega)] at hi
        exact Option.noConfusion hi
      omega
    cases hgi : t.glyphs.get? i with
    | none => rw [List.get?_eq_none] at hgi; omega
    | some g0 =>
      obtain ⟨b, hfb, hb'⟩ := (mapM_option_spec _ _ _ hupd).2 i g0 hgi
      rw [hi] at hb'
      injection hb' with hb'
      subst hb'
      obtain ⟨b', hfb', hbb⟩ := htot g0 (List.get?_mem hgi)
      rw [hfb] at hfb'
      injection hfb' with hfb'
      subst hfb'
      exact hbb c hc

/-- The composite pass succeeds on a glyph whose component indices are
within the boxes vector. -/
theorem compositePassGlyph_total (boxes : List Rect) (g : Glyph)
    (hgb : ∀ c ∈ g.components, c.glyph_index < boxes.length) :
    ∃ g', compositePassGlyph boxes g = .ok g' := by
  unfold compositePassGlyph
  cases hhc : g.has_components with
  | false => exact ⟨g, by simp⟩
  | true =>
    simp only [hhc, Bool.not_true, Bool.false_eq_true, if_false]
    cases hfind : g.components.find? Component.useMyMetrics with
    | some comp =>
      have hmem : comp ∈ g.components := List.mem_of_find?_eq_some hfind
      have hlt := hgb comp hmem
      cases hbox : boxes.get? comp.glyph_index with
      | none => rw [List.get?_eq_none] at hbox; omega
      | some b =>
        refine ⟨g.set_bounds_rect b, ?_⟩
        dsimp only
        rw [hbox]
    | none =>
      obtain ⟨tb, htb⟩ := mapM_except_total
        (fun comp =>
          match boxes.get? comp.glyph_index with
          | none => Except.error RecalcPanic.oobIndex
          | some b => .ok (comp.transformation.transform_rect_bbox b))
        g.components
        (by
          intro comp hcm
          have hlt := hgb comp hcm
          cases hbox : boxes.get? comp.glyph_index with
          | none => rw [List.get?_eq_none] at hbox; omega
          | some b =>
            refine ⟨comp.transformation.transform_rect_bbox b, ?_⟩
            dsimp only
            rw [hbox])
      have hlen := (mapM_except_spec _ _ _ htb).1
      have hne : g.components ≠ [] := by
        intro hnil
        simp [Glyph.has_components, hnil] at hhc
      cases tb with
      | nil =>
        rw [List.length_nil] at hlen
        exact absurd (List.eq_nil_of_length_eq_zero hlen.symm) hne
      | cons b bs =>
        refine ⟨g.set_bounds_rect (bs.foldl Rect.union b), ?_⟩
        rw [htb]
        simp [Bind.bind, Except.bind, reduceUnwrap]

/-- C10: under the precondition that every component's glyph index in
the table is strictly below the glyph count, every unchecked lookup in
`flat_components` and in the composite pass of `recalc_bounds` is in
range: the modelled panics (the `none`/`error` out-of-bounds branches)
are unreachable and both operations succeed.  (No handling exists for
an out-of-range index: those branches are the Rust indexing panic.) -/
theorem in_bounds_indexing_safe (t : glyf)
    (hb : ∀ g ∈ t.glyphs, ∀ c ∈ g.components, c.glyph_index < t.glyphs.length) :
    (∀ g ∈ t.glyphs, ∃ cs, flat_components t g 0 = some cs) ∧
    ∃ t', recalc_bounds t = .ok t' := by
  constructor
  · intro g hg
    obtain ⟨out, hout, _⟩ := flat_components_total t hb g (hb g hg) 0
    exact ⟨out, hout⟩
  · obtain ⟨t1, hft, hlen1, hb1⟩ := flatten_components_total t hb
    have hmemsp : ∀ g2 ∈ (simplePass t1).glyphs, ∀ c ∈ g2.components,
        c.glyph_index < t.glyphs.length := by
      intro g2 hg2
      obtain ⟨g1, hg1, rfl⟩ := List.mem_map.mp hg2
      by_cases hhc : g1.has_components
      · simpa [hhc] using hb1 g1 hg1
      · simpa [hhc] using hb1 g1 hg1
    have hboxlen : (gatherBoxes (simplePass t1)).length = t.glyphs.length := by
      simp [gatherBoxes, simplePass, hlen1]
    obtain ⟨gs, hgs⟩ := mapM_except_total (compositePassGlyph (gatherBoxes (simplePass t1)))
      (simplePass t1).glyphs
      (by
        intro g2 hg2
        exact compositePassGlyph_total _ g2
          (fun c hc => hboxlen ▸ hmemsp g2 hg2 c hc))
    refine ⟨⟨gs⟩, ?_⟩
    unfold recalc_bounds
    rw [hft]
    simp only [Bind.bind, Except.bind]
    rw [hgs]

/-- Witness for C10: a concrete in-bounds table (a simple glyph and a
composite over it) flattens and recomputes bounds without reaching any
out-of-bounds branch. -/
theorem in_bounds_indexing_safe_witness :
    (∀ g ∈ (⟨[{ emptyGlyph with contours := [[⟨1, 2, true⟩, ⟨3, 5, true⟩]] },
               { emptyGlyph with components := [⟨0, Affine.id, none, USE_MY_METRICS⟩] }]⟩ :
        glyf).glyphs,
      ∃ cs, flat_components (⟨[{ emptyGlyph with contours := [[⟨1, 2, true⟩, ⟨3, 5, true⟩]] },
               { emptyGlyph with components := [⟨0, Affine.id, none, USE_MY_METRICS⟩] }]⟩ :
        glyf) g 0 = some cs) ∧
    ∃ t', recalc_bounds (⟨[{ emptyGlyph with contours := [[⟨1, 2, true⟩, ⟨3, 5, true⟩]] },
               { emptyGlyph with components := [⟨0, Affine.id, none, USE_MY_METRICS⟩] }]⟩ :
        glyf) = .ok t' :=
  in_bounds_indexing_safe _ (by decide)

/-! ## Frame property of `flatten_components` (C7) -/

theorem flat_components_of_no_components (t : glyf) (g : Glyph)
    (hc : g.components = []) : flat_components t g 0 = some [] := by
  unfold flat_components
  rw [if_neg (by omega)]
  show flatGoF t _ g.components = some []
  rw [hc]
  rfl

/-- C7: `flatten_components` keeps the number and order of glyphs; a
glyph that is not composite, or whose recomputed flat component list
equals its current one, is returned unchanged (contours, instructions,
bounds and components all identical); otherwise exactly the component
list is replaced by the flattened one. -/
theorem flatten_components_frame (t t' : glyf) (h : flatten_components t = some t') :
    t'.glyphs.length = t.glyphs.length ∧
    ∀ i g, t.glyphs.get? i = some g →
      (g.has_components = false → t'.glyphs.get? i = some g) ∧
      ∀ fl, flat_components t g 0 = some fl →
        (fl = g.components → t'.glyphs.get? i = some g) ∧
        (fl ≠ g.components → t'.glyphs.get? i = some { g with components := fl }) := by
  unfold flatten_components at h
  cases hupd : t.glyphs.mapM (fun g =>
      if g.has_components then do
        let flat ← flat_components t g 0
        if g.components = flat then some g else some { g with components := flat }
      else some g) with
  | none => rw [hupd] at h; simp at h
  | some updated =>
    rw [hupd] at h
    simp only [Option.pure_def, Option.bind_eq_bind, Option.some_bind,
      Option.some.injEq] at h
    subst h
    have spec := mapM_option_spec _ _ _ hupd
    refine ⟨spec.1, ?_⟩
    intro i g hg
    obtain ⟨b, hFb, hb⟩ := spec.2 i g hg
    constructor
    · intro hnc
      rw [hnc] at hFb
      simp only [Bool.false_eq_true, if_false, Option.some.injEq] at hFb
      subst hFb
      exact hb
    · intro fl hfl
      cases hhc : g.has_components with
      | false =>
        have hcomps : g.components = [] := by
          simpa [Glyph.has_components, List.isEmpty_iff] using hhc
        rw [flat_components_of_no_components t g hcomps] at hfl
        injection hfl with hfl
        subst hfl
        rw [hhc] at hFb
        simp only [Bool.false_eq_true, if_false, Option.some.injEq] at hFb
        subst hFb
        exact ⟨fun _ => hb, fun hne => absurd hcomps.symm hne⟩
      | true =>
        rw [hhc] at hFb
        simp only [if_true] at hFb
        rw [hfl] at hFb
        simp only [Option.pure_def, Option.bind_eq_bind, Option.some_bind] at hFb
        by_cases heq : g.components = fl
        · rw [if_pos heq] at hFb
          injection hFb with hFb
          subst hFb
          exact ⟨fun _ => hb, fun hne => absurd heq.symm hne⟩
        · rw [if_neg heq] at hFb
          injection hFb with hFb
          subst hFb
          refine ⟨fun hfe => absurd hfe.symm heq, fun _ => hb⟩

/-- The single-level composite table of the C7 witness: glyph 1's
component list is already flat, so flattening leaves the whole table
untouched. -/
def w7table : glyf :=
  ⟨[{ emptyGlyph with contours := [[⟨1, 2, true⟩, ⟨3, 5, true⟩]] },
    { emptyGlyph with components := [⟨0, Affine.id, none, 0⟩] },
    emptyGlyph]⟩

/-- Witness for C7 on the concrete table: the glyph count is preserved
and the already-flat composite glyph is returned unchanged. -/
theorem flatten_components_frame_witness :
    w7table.glyphs.length = w7table.glyphs.length ∧
    w7table.glyphs.get? 1 = some { emptyGlyph with components := [⟨0, Affine.id, none, 0⟩] } := by
  have h := flatten_components_frame w7table w7table (by decide)
  refine ⟨h.1, ?_⟩
  have h2 := (h.2 1 { emptyGlyph with components := [⟨0, Affine.id, none, 0⟩] } (by decide)).2
    [⟨0, Affine.id, none, 0⟩] (by decide)
  exact h2.1 (by decide)

/-! ## Table construction (C6) -/

theorem from_rcGlyphs_spec (data : List Nat) :
    ∀ (loca : List (Option Nat)) (gs : List Glyph), from_rcGlyphs data loca = .ok gs →
      gs.length = loca.length ∧
      (∀ i, loca.get? i = some none → gs.get? i = some emptyGlyph) ∧
      (∀ i off, loca.get? i = some (some off) →
        ∃ gr, glyphDecodeO (data.drop off) = some gr ∧ gs.get? i = some gr.1) := by
  intro loca
  induction loca with
  | nil =>
    intro gs h
    unfold from_rcGlyphs at h
    injection h with h
    subst h
    exact ⟨rfl, by intro i hi; simp at hi, by intro i off hi; simp at hi⟩
  | cons o rest ih =>
    intro gs h
    cases o with
    | none =>
      unfold from_rcGlyphs at h
      cases hrec : from_rcGlyphs data rest with
      | error e => rw [hrec] at h; simp [Bind.bind, Except.bind] at h
      | ok gs' =>
        rw [hrec] at h
        simp only [Bind.bind, Except.bind, Except.ok.injEq] at h
        subst h
        obtain ⟨hlen, hnone, hsome⟩ := ih gs' hrec
        refine ⟨by simp [hlen], ?_, ?_⟩
        · intro i hi
          cases i with
          | zero => rfl
          | succ n =>
            simp only [List.get?_cons_succ] at hi ⊢
            exact hnone n hi
        · intro i off hi
          cases i with
          | zero => simp at hi
          | succ n =>
            simp only [List.get?_cons_succ] at hi ⊢
            exact hsome n off hi
    | some off =>
      unfold from_rcGlyphs at h
      cases hdec : glyphDecodeO (data.drop off) with
      | none =>
        rw [show glyphDecode (data.drop off) = .error "a glyph record" by
          unfold glyphDecode; rw [hdec]] at h
        simp [Bind.bind, Except.bind] at h
      | some gr =>
        rw [show glyphDecode (data.drop off) = .ok gr by
          unfold glyphDecode; rw [hdec]] at h
        cases hrec : from_rcGlyphs data rest with
        | error e => rw [hrec] at h; simp [Bind.bind, Except.bind] at h
        | ok gs' =>
          rw [hrec] at h
          simp only [Bind.bind, Except.bind, Except.ok.injEq] at h
          subst h
          obtain ⟨hlen, hnone, hsome⟩ := ih gs' hrec
          refine ⟨by simp [hlen], ?_, ?_⟩
          · intro i hi
            cases i with
            | zero => simp at hi
            | succ n =>
              simp only [List.get?_cons_succ] at hi ⊢
              exact hnone n hi
          · intro i off' hi
            cases i with
            | zero =>
              simp only [List.get?_cons_zero, Option.some.injEq, Option.some.injEq] at hi
              subst hi
              exact ⟨gr, hdec, rfl⟩
            | succ n =>
              simp only [List.get?_cons_succ] at hi ⊢
              exact hsome n off' hi

/-- C6: a successful table construction yields exactly one glyph per
offset-list entry, in order: a `None` entry yields the glyph with zero
contours, zero components, empty instructions and the all-zero
bounding box, and a `Some(offset)` entry yields the glyph decoded at
that offset. -/
theorem from_bytes_one_glyph_per_offset (data : List Nat) (loca : List (Option Nat))
    (t : glyf) (h : from_bytes data loca = .ok t) :
    t.glyphs.length = loca.length ∧
    (∀ i, loca.get? i = some none → t.glyphs.get? i = some
      { contours := [], components := [], overlap := false, instructions := []
        xMax := 0, xMin := 0, yMax := 0, yMin := 0 }) ∧
    (∀ i off, loca.get? i = some (some off) →
      ∃ gr, glyphDecodeO (data.drop off) = some gr ∧ t.glyphs.get? i = some gr.1) := by
  unfold from_bytes from_rc at h
  cases hrec : from_rcGlyphs data loca with
  | error e => rw [hrec] at h; simp [Except.map] at h
  | ok gs =>
    rw [hrec] at h
    simp only [Except.map, Except.ok.injEq] at h
    subst h
    exact from_rcGlyphs_spec data loca gs hrec

/-- Witness for C6: an empty buffer with a two-entry `None` offset list
produces exactly two empty glyphs. -/
theorem from_bytes_one_glyph_per_offset_witness :
    (glyf.mk [emptyGlyph, emptyGlyph]).glyphs.length =
      ([none, none] : List (Option Nat)).length ∧
    (glyf.mk [emptyGlyph, emptyGlyph]).glyphs.get? 0 = some
      { contours := [], components := [], overlap := false, instructions := []
        xMax := 0, xMin := 0, yMax := 0, yMin := 0 } := by
  have h := from_bytes_one_glyph_per_offset [] [none, none]
    (glyf.mk [emptyGlyph, emptyGlyph]) rfl
  exact ⟨h.1, h.2.1 0 rfl⟩

/-! ## Bounds recomputation: the simple-glyph pass (C5) -/

theorem minOr0_spec (l : List Int) (hl : l ≠ []) :
    minOr0 l ∈ l ∧ ∀ y ∈ l, minOr0 l ≤ y := by
  cases l with
  | nil => exact absurd rfl hl
  | cons x xs => exact ⟨foldl_min_mem xs x, fun y hy => foldl_min_le xs x y hy⟩

theorem maxOr0_spec (l : List Int) (hl : l ≠ []) :
    maxOr0 l ∈ l ∧ ∀ y ∈ l, y ≤ maxOr0 l := by
  cases l with
  | nil => exact absurd rfl hl
  | cons x xs => exact ⟨foldl_max_mem xs x, fun y hy => le_foldl_max xs x y hy⟩

/-- Destructuring a successful `recalc_bounds` run into its pipeline
stages. -/
theorem recalc_bounds_ok_elim (t t' : glyf) (h : recalc_bounds t = .ok t') :
    ∃ t1, flatten_components t = some t1 ∧
      (simplePass t1).glyphs.mapM
        (compositePassGlyph (gatherBoxes (simplePass t1))) = .ok t'.glyphs := by
  unfold recalc_bounds at h
  cases hft : flatten_components t with
  | none =>
    rw [hft] at h
    simp [Bind.bind, Except.bind] at h
  | some t1 =>
    rw [hft] at h
    simp only [Bind.bind, Except.bind] at h
    cases hmm : (simplePass t1).glyphs.mapM
        (compositePassGlyph (gatherBoxes (simplePass t1))) with
    | error e => rw [hmm] at h; simp at h
    | ok gs =>
      rw [hmm] at h
      injection h with h
      subst h
      exact ⟨t1, rfl, hmm⟩

/-- C5: after `recalc_bounds`, every non-composite glyph carries the
tight integer bounding box of all its contour points (each bound is
attained by some point and bounds every point), and an all-zero box
when it has no points; nothing else about the glyph changes. -/
theorem recalc_bounds_simple_tight_bbox (t t' : glyf) (i : Nat) (g : Glyph)
    (h : recalc_bounds t = .ok t') (hg : t.glyphs.get? i = some g)
    (hs : g.components = []) :
    ∃ g', t'.glyphs.get? i = some g' ∧
      g'.contours = g.contours ∧ g'.components = [] ∧
      g'.instructions = g.instructions ∧ g'.overlap = g.overlap ∧
      (g.contours.flatten = [] →
        g'.xMin = 0 ∧ g'.xMax = 0 ∧ g'.yMin = 0 ∧ g'.yMax = 0) ∧
      (g.contours.flatten ≠ [] →
        ((∃ p ∈ g.contours.flatten, g'.xMin = p.x) ∧
          ∀ p ∈ g.contours.flatten, g'.xMin ≤ p.x) ∧
        ((∃ p ∈ g.contours.flatten, g'.xMax = p.x) ∧
          ∀ p ∈ g.contours.flatten, p.x ≤ g'.xMax) ∧
        ((∃ p ∈ g.contours.flatten, g'.yMin = p.y) ∧
          ∀ p ∈ g.contours.flatten, g'.yMin ≤ p.y) ∧
        ((∃ p ∈ g.contours.flatten, g'.yMax = p.y) ∧
          ∀ p ∈ g.contours.flatten, p.y ≤ g'.yMax)) := by
  obtain ⟨t1, hft, hmm⟩ := recalc_bounds_ok_elim t t' h
  have hhc : g.has_components = false := by
    simp [Glyph.has_components, hs]
  have ht1 : t1.glyphs.get? i = some g :=
    ((flatten_components_frame t t1 hft).2 i g hg).1 hhc
  have hsp : (simplePass t1).glyphs.get? i = some
      { g with
        xMin := minOr0 (g.contours.flatten.map Point.x)
        xMax := maxOr0 (g.contours.flatten.map Point.x)
        yMin := minOr0 (g.contours.flatten.map Point.y)
        yMax := maxOr0 (g.contours.flatten.map Point.y) } := by
    show (t1.glyphs.map _).get? i = _
    rw [List.get?_map, ht1]
    simp [hhc]
  obtain ⟨b, hcb, hb⟩ := (mapM_except_spec _ _ _ hmm).2 i _ hsp
  have hcbv : compositePassGlyph (gatherBoxes (simplePass t1))
      { g with
        xMin := minOr0 (g.contours.flatten.map Point.x)
        xMax := maxOr0 (g.contours.flatten.map Point.x)
        yMin := minOr0 (g.contours.flatten.map Point.y)
        yMax := maxOr0 (g.contours.flatten.map Point.y) } = .ok
      { g with
        xMin := minOr0 (g.contours.flatten.map Point.x)
        xMax := maxOr0 (g.contours.flatten.map Point.x)
        yMin := minOr0 (g.contours.flatten.map Point.y)
        yMax := maxOr0 (g.contours.flatten.map Point.y) } := by
    unfold compositePassGlyph
    simp [Glyph.has_components, hs]
  rw [hcbv] at hcb
  injection hcb with hcb
  subst hcb
  refine ⟨_, hb, rfl, hs, rfl, rfl, ?_, ?_⟩
  · intro hnil
    simp [hnil, minOr0, maxOr0]
  · intro hne
    have hnex : g.contours.flatten.map Point.x ≠ [] := by
      simpa using hne
    have hney : g.contours.flatten.map Point.y ≠ [] := by
      simpa using hne
    obtain ⟨hxmem, hxle⟩ := minOr0_spec _ hnex
    obtain ⟨hXmem, hXle⟩ := maxOr0_spec _ hnex
    obtain ⟨hymem, hyle⟩ := minOr0_spec _ hney
    obtain ⟨hYmem, hYle⟩ := maxOr0_spec _ hney
    refine ⟨⟨?_, ?_⟩, ⟨?_, ?_⟩, ⟨?_, ?_⟩, ⟨?_, ?_⟩⟩
    · obtain ⟨p, hp, hpx⟩ := List.mem_map.mp hxmem
      exact ⟨p, hp, hpx.symm⟩
    · exact fun p hp => hxle p.x (List.mem_map.mpr ⟨p, hp, rfl⟩)
    · obtain ⟨p, hp, hpx⟩ := List.mem_map.mp hXmem
      exact ⟨p, hp, hpx.symm⟩
    · exact fun p hp => hXle p.x (List.mem_map.mpr ⟨p, hp, rfl⟩)
    · obtain ⟨p, hp, hpy⟩ := List.mem_map.mp hymem
      exact ⟨p, hp, hpy.symm⟩
    · exact fun p hp => hyle p.y (List.mem_map.mpr ⟨p, hp, rfl⟩)
    · obtain ⟨p, hp, hpy⟩ := List.mem_map.mp hYmem
      exact ⟨p, hp, hpy.symm⟩
    · exact fun p hp => hYle p.y (List.mem_map.mpr ⟨p, hp, rfl⟩)

/-- The simple glyph of the C5/C3 witness table: a two-point contour
spanning x ∈ [1, 3], y ∈ [2, 5] (stored with stale zero bounds). -/
def w5g0 : Glyph := { emptyGlyph with contours := [[⟨1, 5, true⟩, ⟨3, 2, true⟩]] }

/-- Witness table for C5: one simple glyph. -/
def w5table : glyf := ⟨[w5g0]⟩

/-- Witness for C5: the concrete simple glyph gets the tight box
1 ≤ x ≤ 3, 2 ≤ y ≤ 5. -/
theorem recalc_bounds_simple_tight_bbox_witness :
    ∃ g', (glyf.mk [{ w5g0 with xMin := 1, xMax := 3, yMin := 2, yMax := 5 }]).glyphs.get? 0 =
        some g' ∧
      g'.contours = w5g0.contours ∧ g'.components = [] ∧
      g'.instructions = w5g0.instructions ∧ g'.overlap = w5g0.overlap ∧
      (w5g0.contours.flatten = [] →
        g'.xMin = 0 ∧ g'.xMax = 0 ∧ g'.yMin = 0 ∧ g'.yMax = 0) ∧
      (w5g0.contours.flatten ≠ [] →
        ((∃ p ∈ w5g0.contours.flatten, g'.xMin = p.x) ∧
          ∀ p ∈ w5g0.contours.flatten, g'.xMin ≤ p.x) ∧
        ((∃ p ∈ w5g0.contours.flatten, g'.xMax = p.x) ∧
          ∀ p ∈ w5g0.contours.flatten, p.x ≤ g'.xMax) ∧
        ((∃ p ∈ w5g0.contours.flatten, g'.yMin = p.y) ∧
          ∀ p ∈ w5g0.contours.flatten, g'.yMin ≤ p.y) ∧
        ((∃ p ∈ w5g0.contours.flatten, g'.yMax = p.y) ∧
          ∀ p ∈ w5g0.contours.flatten, p.y ≤ g'.yMax)) :=
  recalc_bounds_simple_tight_bbox w5table
    (glyf.mk [{ w5g0 with xMin := 1, xMax := 3, yMin := 2, yMax := 5 }]) 0 w5g0
    rfl rfl rfl

/-! ## Bounds recomputation: the composite pass (C3) -/

theorem ratTrunc_intCast (n : Int) : ratTrunc ((n : Int) : Rat) = n := by
  unfold ratTrunc
  rw [Rat.num_intCast, Rat.den_intCast]
  simp [Int.tdiv_one]

theorem mapM_except_forall₂ {ε α β : Type} (f : α → Except ε β) :
    ∀ (l : List α) (l' : List β), l.mapM f = .ok l' →
      List.Forall₂ (fun a b => f a = .ok b) l l' := by
  intro l
  induction l with
  | nil =>
    intro l' h
    rw [List.mapM_nil] at h
    simp only [pure, Except.pure, Except.ok.injEq] at h
    subst h
    exact List.Forall₂.nil
  | cons a as ih =>
    intro l' h
    rw [List.mapM_cons] at h
    cases hfa : f a with
    | error e => rw [hfa] at h; simp [Bind.bind, Except.bind] at h
    | ok b =>
      rw [hfa] at h
      cases hrest : as.mapM f with
      | error e =>
        rw [hrest] at h
        simp [Bind.bind, Except.bind, pure, Except.pure] at h
      | ok bs =>
        rw [hrest] at h
        simp only [Bind.bind, Except.bind, pure, Except.pure, Except.ok.injEq] at h
        subst h
        exact List.Forall₂.cons hfa (ih bs hrest)

/-- C3: after `recalc_bounds`, a composite glyph (with flattened
components, `t1` being the flattened table) gets its bounds copied
verbatim — untransformed — from the glyph referenced by the first
`USE_MY_METRICS` component when one exists; otherwise its bounds are
the (truncated-to-integer) union of the referenced glyphs' boxes, each
first transformed through its component's affine transform. -/
theorem recalc_bounds_composite_spec (t t1 t' : glyf)
    (hflat : flatten_components t = some t1)
    (h : recalc_bounds t = .ok t')
    (i : Nat) (g' : Glyph) (hg : t'.glyphs.get? i = some g')
    (hc : g'.components ≠ []) :
    (∀ c, g'.components.find? Component.useMyMetrics = some c →
      ∃ rg, (simplePass t1).glyphs.get? c.glyph_index = some rg ∧
        g'.xMin = rg.xMin ∧ g'.yMin = rg.yMin ∧ g'.xMax = rg.xMax ∧ g'.yMax = rg.yMax) ∧
    (g'.components.find? Component.useMyMetrics = none →
      ∃ tb, List.Forall₂ (fun c bx =>
          ∃ rg, (simplePass t1).glyphs.get? c.glyph_index = some rg ∧
            bx = c.transformation.transform_rect_bbox rg.bounds_rect)
          g'.components tb ∧
        ∀ b0 tl, tb = b0 :: tl →
          g'.xMin = ratTrunc (tl.foldl Rect.union b0).x0 ∧
          g'.yMin = ratTrunc (tl.foldl Rect.union b0).y0 ∧
          g'.xMax = ratTrunc (tl.foldl Rect.union b0).x1 ∧
          g'.yMax = ratTrunc (tl.foldl Rect.union b0).y1) := by
  obtain ⟨t1', hft', hmm⟩ := recalc_bounds_ok_elim t t' h
  rw [hflat] at hft'
  injection hft' with hft'
  subst hft'
  have hlen := (mapM_except_spec _ _ _ hmm).1
  have hi : i < (simplePass t1).glyphs.length := by
    have h2 : i < t'.glyphs.length := by
      by_contra hcon
      rw [List.get?_eq_none.mpr (by omega)] at hg
      exact Option.noConfusion hg
    omega
  cases hg2 : (simplePass t1).glyphs.get? i with
  | none => rw [List.get?_eq_none] at hg2; omega
  | some g2 =>
    obtain ⟨b, hcb, hb⟩ := (mapM_except_spec _ _ _ hmm).2 i g2 hg2
    rw [hg] at hb
    injection hb with hb
    subst hb
    unfold compositePassGlyph at hcb
    cases hhc2 : g2.has_components with
    | false =>
      simp only [hhc2, Bool.not_false, if_true] at hcb
      injection hcb with hcb
      subst hcb
      have hcomps : g2.components = [] := by
        simpa [Glyph.has_components, List.isEmpty_iff] using hhc2
      exact absurd hcomps hc
    | true =>
      simp only [hhc2, Bool.not_true, Bool.false_eq_true, if_false] at hcb
      cases hfind : g2.components.find? Component.useMyMetrics with
      | some comp =>
        simp only [hfind] at hcb
        cases hbox : (gatherBoxes (simplePass t1)).get? comp.glyph_index with
        | none =>
          simp only [hbox] at hcb
          exact Except.noConfusion hcb
        | some bx =>
          simp only [hbox] at hcb
          injection hcb with hcb
          subst hcb
          have hcompeq : (g2.set_bounds_rect bx).components = g2.components := rfl
          constructor
          · intro c hfc
            rw [hcompeq, hfind] at hfc
            injection hfc with hfc
            subst hfc
            rw [gatherBoxes, List.get?_map] at hbox
            cases hrg : (simplePass t1).glyphs.get? comp.glyph_index with
            | none => rw [hrg] at hbox; exact Option.noConfusion hbox
            | some rg =>
              rw [hrg] at hbox
              injection hbox with hbox
              subst hbox
              exact ⟨rg, rfl, ratTrunc_intCast _, ratTrunc_intCast _,
                ratTrunc_intCast _, ratTrunc_intCast _⟩
          · intro hfn
            rw [hcompeq, hfind] at hfn
            exact Option.noConfusion hfn
      | none =>
        simp only [hfind] at hcb
        cases htb : g2.components.mapM (fun comp =>
            match (gatherBoxes (simplePass t1)).get? comp.glyph_index with
            | none => Except.error RecalcPanic.oobIndex
            | some b => .ok (comp.transformation.transform_rect_bbox b)) with
        | error e =>
          rw [htb] at hcb
          simp [Bind.bind, Except.bind] at hcb
        | ok tb =>
          rw [htb] at hcb
          simp only [Bind.bind, Except.bind] at hcb
          cases tb with
          | nil => simp [reduceUnwrap] at hcb
          | cons b0 tl =>
            simp only [reduceUnwrap] at hcb
            injection hcb with hcb
            subst hcb
            have hcompeq : (g2.set_bounds_rect (tl.foldl Rect.union b0)).components
                = g2.components := rfl
            constructor
            · intro c hfc
              rw [hcompeq, hfind] at hfc
              exact Option.noConfusion hfc
            · intro _
              refine ⟨b0 :: tl, ?_, ?_⟩
              · have hf2 := mapM_except_forall₂ _ _ _ htb
                rw [hcompeq]
                refine hf2.imp ?_
                intro c bx hcbx
                cases hbox : (gatherBoxes (simplePass t1)).get? c.glyph_index with
                | none => rw [hbox] at hcbx; exact Except.noConfusion hcbx
                | some bx' =>
                  rw [hbox] at hcbx
                  injection hcbx with hcbx
                  subst hcbx
                  rw [gatherBoxes, List.get?_map] at hbox
                  cases hrg : (simplePass t1).glyphs.get? c.glyph_index with
                  | none => rw [hrg] at hbox; exact Option.noConfusion hbox
                  | some rg =>
                    rw [hrg] at hbox
                    injection hbox with hbox
                    subst hbox
                    exact ⟨rg, rfl, rfl⟩
              · intro b0' tl' heq
                injection heq with h1 h2
                subst h1
                subst h2
                exact ⟨rfl, rfl, rfl, rfl⟩

/-- The composite glyph of the C3 witness: references glyph 0 with
`USE_MY_METRICS` set. -/
def w3g1 : Glyph := { emptyGlyph with components := [⟨0, Affine.id, none, USE_MY_METRICS⟩] }

/-- The witness table for C3: a simple glyph and a `USE_MY_METRICS`
composite over it. -/
def w3table : glyf := ⟨[w5g0, w3g1]⟩

/-- Witness for C3: on the concrete table, the composite glyph's
recomputed bounds are copied verbatim from glyph 0's freshly computed
box (1, 2)–(3, 5). -/
theorem recalc_bounds_composite_spec_witness :
    ∃ rg, (simplePass w3table).glyphs.get?
        (⟨0, Affine.id, none, USE_MY_METRICS⟩ : Component).glyph_index = some rg ∧
      ({ w3g1 with xMin := 1, yMin := 2, xMax := 3, yMax := 5 } : Glyph).xMin = rg.xMin ∧
      ({ w3g1 with xMin := 1, yMin := 2, xMax := 3, yMax := 5 } : Glyph).yMin = rg.yMin ∧
      ({ w3g1 with xMin := 1, yMin := 2, xMax := 3, yMax := 5 } : Glyph).xMax = rg.xMax ∧
      ({ w3g1 with xMin := 1, yMin := 2, xMax := 3, yMax := 5 } : Glyph).yMax = rg.yMax := by
  have h := recalc_bounds_composite_spec w3table w3table
    (glyf.mk [{ w5g0 with xMin := 1, xMax := 3, yMin := 2, yMax := 5 },
              { w3g1 with xMin := 1, yMin := 2, xMax := 3, yMax := 5 }])
    rfl rfl 1 { w3g1 with xMin := 1, yMin := 2, xMax := 3, yMax := 5 } rfl (by decide)
  exact h.1 ⟨0, Affine.id, none, USE_MY_METRICS⟩ rfl

/-! ## Round-trip of the simple-glyph codec (C1): primitive lemmas -/

theorem readU16_enc (n : Nat) (r : List Nat) : readU16 (encU16 n ++ r) = some (n, r) := by
  show some (n / 256 * 256 + n % 256, r) = some (n, r)
  have h : n / 256 * 256 + n % 256 = n := by omega
  rw [h]

theorem intOfU16_u16ofInt (x : Int) (h : inI16 x) : intOfU16 (u16ofInt x) = x := by
  unfold intOfU16 u16ofInt
  unfold inI16 at h
  omega

theorem readI16_enc (x : Int) (r : List Nat) (h : inI16 x) :
    readI16 (encI16 x ++ r) = some (x, r) := by
  unfold readI16 encI16
  rw [readU16_enc]
  simp [intOfU16_u16ofInt x h]

theorem readU16List_enc :
    ∀ (l : List Nat) (r : List Nat),
      readU16List l.length (l.flatMap encU16 ++ r) = some (l, r) := by
  intro l
  induction l with
  | nil => intro r; rfl
  | cons x xs ih =>
    intro r
    show readU16List (xs.length + 1) ((encU16 x ++ xs.flatMap encU16) ++ r) = _
    rw [List.append_assoc]
    unfold readU16List
    rw [readU16_enc]
    simp only [Option.pure_def, Option.bind_eq_bind, Option.some_bind]
    rw [ih r]
    rfl

theorem readBytes_append (l r : List Nat) : readBytes l.length (l ++ r) = some (l, r) := by
  unfold readBytes
  rw [if_neg (by simp)]
  rw [List.take_left, List.drop_left]

theorem mkFlag_testBit0 (o xs ys x4 y5 ov : Bool) :
    (mkFlag o xs ys x4 y5 ov).testBit 0 = o := by
  cases o <;> cases xs <;> cases ys <;> cases x4 <;> cases y5 <;> cases ov <;> decide

theorem mkFlag_testBit1 (o xs ys x4 y5 ov : Bool) :
    (mkFlag o xs ys x4 y5 ov).testBit 1 = xs := by
  cases o <;> cases xs <;> cases ys <;> cases x4 <;> cases y5 <;> cases ov <;> decide

theorem mkFlag_testBit2 (o xs ys x4 y5 ov : Bool) :
    (mkFlag o xs ys x4 y5 ov).testBit 2 = ys := by
  cases o <;> cases xs <;> cases ys <;> cases x4 <;> cases y5 <;> cases ov <;> decide

theorem mkFlag_testBit3 (o xs ys x4 y5 ov : Bool) :
    (mkFlag o xs ys x4 y5 ov).testBit 3 = false := by
  cases o <;> cases xs <;> cases ys <;> cases x4 <;> cases y5 <;> cases ov <;> decide

theorem mkFlag_testBit4 (o xs ys x4 y5 ov : Bool) :
    (mkFlag o xs ys x4 y5 ov).testBit 4 = x4 := by
  cases o <;> cases xs <;> cases ys <;> cases x4 <;> cases y5 <;> cases ov <;> decide

theorem mkFlag_testBit5 (o xs ys x4 y5 ov : Bool) :
    (mkFlag o xs ys x4 y5 ov).testBit 5 = y5 := by
  cases o <;> cases xs <;> cases ys <;> cases x4 <;> cases y5 <;> cases ov <;> decide

theorem mkFlag_testBit6 (o xs ys x4 y5 ov : Bool) :
    (mkFlag o xs ys x4 y5 ov).testBit 6 = ov := by
  cases o <;> cases xs <;> cases ys <;> cases x4 <;> cases y5 <;> cases ov <;> decide

theorem encPoints_cons (ov : Bool) (prev : Int × Int) (p : Point) (ps : List Point) :
    encPoints ov prev (p :: ps) =
      (mkFlag p.on_curve (shortB (p.x - prev.1)) (shortB (p.y - prev.2))
          (sameOrPosB (p.x - prev.1)) (sameOrPosB (p.y - prev.2)) ov
            :: (encPoints false (p.x, p.y) ps).1,
       coordBytes (p.x - prev.1) ++ (encPoints false (p.x, p.y) ps).2.1,
       coordBytes (p.y - prev.2) ++ (encPoints false (p.x, p.y) ps).2.2) := rfl

theorem encPoints_flags_length (ps : List Point) :
    ∀ (ov : Bool) (prev : Int × Int), (encPoints ov prev ps).1.length = ps.length := by
  induction ps with
  | nil => intro ov prev; rfl
  | cons p ps ih =>
    intro ov prev
    rw [encPoints_cons]
    simp [ih]

theorem readFlags_zero (bs : List Nat) : readFlags 0 bs = some ([], bs) := by
  unfold readFlags
  cases bs <;> rw [readFlagsB.eq_def]

theorem readFlags_cons (n f : Nat) (bs : List Nat) :
    readFlags (n + 1) (f :: bs) =
      (if f.testBit 3 then
        match bs with
        | [] => none
        | rep :: bs' =>
          match readFlags (n - rep) bs' with
          | none => none
          | some (fs, r) => some (f :: (List.replicate (min rep n) f ++ fs), r)
      else
        match readFlags n bs with
        | none => none
        | some (fs, r) => some (f :: fs, r)) := by
  unfold readFlags
  rw [readFlagsB.eq_def]

/-- The canonical encoder never sets the repeat bit, so flag decoding
returns its flag bytes one-for-one. -/
theorem readFlags_enc :
    ∀ (ps : List Point) (ov : Bool) (prev : Int × Int) (r : List Nat),
      readFlags ps.length ((encPoints ov prev ps).1 ++ r) =
        some ((encPoints ov prev ps).1, r) := by
  intro ps
  induction ps with
  | nil => intro ov prev r; exact readFlags_zero r
  | cons p ps ih =>
    intro ov prev r
    rw [encPoints_cons]
    simp only [List.cons_append, List.length_cons]
    rw [readFlags_cons, mkFlag_testBit3]
    simp only [Bool.false_eq_true, if_false]
    rw [ih false (p.x, p.y) r]

theorem readDeltas_cons (bShort bSame f : Nat) (fs bs : List Nat) :
    readDeltas bShort bSame (f :: fs) bs =
      (if f.testBit bShort then
        match bs with
        | [] => none
        | b :: bs' => do
          let (ds, r) ← readDeltas bShort bSame fs bs'
          some ((if f.testBit bSame then (b : Int) else -(b : Int)) :: ds, r)
      else if f.testBit bSame then do
        let (ds, r) ← readDeltas bShort bSame fs bs
        some (0 :: ds, r)
      else do
        let (d, bs') ← readI16 bs
        let (ds, r) ← readDeltas bShort bSame fs bs'
        some (d :: ds, r)) := rfl

/-- Decoding the X coordinate stream of the canonical encoder recovers
exactly the X deltas. -/
theorem readDeltas_x_enc :
    ∀ (ps : List Point) (prev : Int × Int) (ov : Bool) (r : List Nat),
      (∀ d ∈ deltas prev.1 (ps.map Point.x), inI16 d) →
      readDeltas 1 4 (encPoints ov prev ps).1 ((encPoints ov prev ps).2.1 ++ r) =
        some (deltas prev.1 (ps.map Point.x), r) := by
  intro ps
  induction ps with
  | nil => intro prev ov r _; rfl
  | cons p ps ih =>
    intro prev ov r h
    rw [encPoints_cons]
    simp only [List.map_cons]
    show readDeltas 1 4 _ ((coordBytes (p.x - prev.1) ++ _) ++ r) =
      some ((p.x - prev.1) :: deltas p.x (ps.map Point.x), r)
    have hd : inI16 (p.x - prev.1) := h _ (by simp [deltas])
    have htail : ∀ d ∈ deltas p.x (ps.map Point.x), inI16 d := by
      intro d hd'
      exact h d (by simp only [List.map_cons, deltas]; exact List.mem_cons_of_mem _ hd')
    rw [List.append_assoc, readDeltas_cons, mkFlag_testBit1, mkFlag_testBit4]
    by_cases h0 : p.x - prev.1 = 0
    · have hs : shortB (p.x - prev.1) = false := by simp [shortB, h0]
      have hsp : sameOrPosB (p.x - prev.1) = true := by simp [sameOrPosB, h0]
      have hb : coordBytes (p.x - prev.1) = [] := by simp [coordBytes, h0]
      rw [hs, hsp, hb]
      simp only [Bool.false_eq_true, if_false, if_true, List.nil_append]
      rw [ih (p.x, p.y) false r htail]
      simp [h0]
    · by_cases h255 : (p.x - prev.1).natAbs ≤ 255
      · have hs : shortB (p.x - prev.1) = true := by simp [shortB, h0, h255]
        have hb : coordBytes (p.x - prev.1) = [(p.x - prev.1).natAbs] := by
          simp [coordBytes, h0, h255]
        rw [hs, hb]
        simp only [if_true, List.cons_append, List.nil_append]
        rw [ih (p.x, p.y) false r htail]
        simp only [Option.pure_def, Option.bind_eq_bind, Option.some_bind,
          Option.some.injEq, Prod.mk.injEq, List.cons.injEq, and_true, true_and]
        by_cases hpos : 0 < p.x - prev.1
        · have hsp : sameOrPosB (p.x - prev.1) = true := by simp [sameOrPosB, h255, hpos]
          rw [hsp]
          simp only [if_true]
          omega
        · have hsp : sameOrPosB (p.x - prev.1) = false := by
            simp [sameOrPosB, h0, hpos]
          rw [hsp]
          simp only [Bool.false_eq_true, if_false]
          omega
      · have hs : shortB (p.x - prev.1) = false := by simp [shortB, h255]
        have hsp : sameOrPosB (p.x - prev.1) = false := by simp [sameOrPosB, h0, h255]
        have hb : coordBytes (p.x - prev.1) = encI16 (p.x - prev.1) := by
          simp [coordBytes, h0, h255]
        rw [hs, hsp, hb]
        simp only [Bool.false_eq_true, if_false, List.append_assoc]
        rw [readI16_enc _ _ hd]
        simp only [Option.pure_def, Option.bind_eq_bind, Option.some_bind]
        rw [ih (p.x, p.y) false r htail]
        rfl

/-- Decoding the Y coordinate stream of the canonical encoder recovers
exactly the Y deltas. -/
theorem readDeltas_y_enc :
    ∀ (ps : List Point) (prev : Int × Int) (ov : Bool) (r : List Nat),
      (∀ d ∈ deltas prev.2 (ps.map Point.y), inI16 d) →
      readDeltas 2 5 (encPoints ov prev ps).1 ((encPoints ov prev ps).2.2 ++ r) =
        some (deltas prev.2 (ps.map Point.y), r) := by
  intro ps
  induction ps with
  | nil => intro prev ov r _; rfl
  | cons p ps ih =>
    intro prev ov r h
    rw [encPoints_cons]
    simp only [List.map_cons]
    show readDeltas 2 5 _ ((coordBytes (p.y - prev.2) ++ _) ++ r) =
      some ((p.y - prev.2) :: deltas p.y (ps.map Point.y), r)
    have hd : inI16 (p.y - prev.2) := h _ (by simp [deltas])
    have htail : ∀ d ∈ deltas p.y (ps.map Point.y), inI16 d := by
      intro d hd'
      exact h d (by simp only [List.map_cons, deltas]; exact List.mem_cons_of_mem _ hd')
    rw [List.append_assoc, readDeltas_cons, mkFlag_testBit2, mkFlag_testBit5]
    by_cases h0 : p.y - prev.2 = 0
    · have hs : shortB (p.y - prev.2) = false := by simp [shortB, h0]
      have hsp : sameOrPosB (p.y - prev.2) = true := by simp [sameOrPosB, h0]
      have hb : coordBytes (p.y - prev.2) = [] := by simp [coordBytes, h0]
      rw [hs, hsp, hb]
      simp only [Bool.false_eq_true, if_false, if_true, List.nil_append]
      rw [ih (p.x, p.y) false r htail]
      simp [h0]
    · by_cases h255 : (p.y - prev.2).natAbs ≤ 255
      · have hs : shortB (p.y - prev.2) = true := by simp [shortB, h0, h255]
        have hb : coordBytes (p.y - prev.2) = [(p.y - prev.2).natAbs] := by
          simp [coordBytes, h0, h255]
        rw [hs, hb]
        simp only [if_true, List.cons_append, List.nil_append]
        rw [ih (p.x, p.y) false r htail]
        simp only [Option.pure_def, Option.bind_eq_bind, Option.some_bind,
          Option.some.injEq, Prod.mk.injEq, List.cons.injEq, and_true, true_and]
        by_cases hpos : 0 < p.y - prev.2
        · have hsp : sameOrPosB (p.y - prev.2) = true := by simp [sameOrPosB, h255, hpos]
          rw [hsp]
          simp only [if_true]
          omega
        · have hsp : sameOrPosB (p.y - prev.2) = false := by
            simp [sameOrPosB, h0, hpos]
          rw [hsp]
          simp only [Bool.false_eq_true, if_false]
          omega
      · have hs : shortB (p.y - prev.2) = false := by simp [shortB, h255]
        have hsp : sameOrPosB (p.y - prev.2) = false := by simp [sameOrPosB, h0, h255]
        have hb : coordBytes (p.y - prev.2) = encI16 (p.y - prev.2) := by
          simp [coordBytes, h0, h255]
        rw [hs, hsp, hb]
        simp only [Bool.false_eq_true, if_false, List.append_assoc]
        rw [readI16_enc _ _ hd]
        simp only [Option.pure_def, Option.bind_eq_bind, Option.some_bind]
        rw [ih (p.x, p.y) false r htail]
        rfl

theorem accumulate_deltas : ∀ (l : List Int) (prev : Int),
    accumulate prev (deltas prev l) = l := by
  intro l
  induction l with
  | nil => intro prev; rfl
  | cons x xs ih =>
    intro prev
    show (prev + (x - prev)) :: accumulate (prev + (x - prev)) (deltas x xs) = x :: xs
    have h : prev + (x - prev) = x := by omega
    rw [h, ih x]

theorem mkPoints_enc : ∀ (ps : List Point) (ov : Bool) (prev : Int × Int),
    mkPoints (ps.map Point.x) (ps.map Point.y) (encPoints ov prev ps).1 = ps := by
  intro ps
  induction ps with
  | nil => intro ov prev; rfl
  | cons p ps ih =>
    intro ov prev
    rw [encPoints_cons]
    simp only [List.map_cons]
    show Point.mk p.x p.y ((mkFlag _ _ _ _ _ ov).testBit 0) :: mkPoints _ _ _ = p :: ps
    rw [mkFlag_testBit0, ih false (p.x, p.y)]

theorem endsOf_length : ∀ (cs : List (List Point)) (acc : Nat),
    (endsOf cs acc).length = cs.length := by
  intro cs
  induction cs with
  | nil => intro acc; rfl
  | cons c cs' ih =>
    intro acc
    show (endsOf cs' (acc + c.length)).length + 1 = cs'.length + 1
    rw [ih]

theorem getLast?_cons_of_ne_nil {α : Type} (x : α) (l : List α) (h : l ≠ []) :
    (x :: l).getLast? = l.getLast? := by
  cases l with
  | nil => exact absurd rfl h
  | cons y ys => rw [List.getLast?_cons_cons]

theorem endsOf_getLast? : ∀ (cs : List (List Point)) (acc : Nat), cs ≠ [] →
    (endsOf cs acc).getLast? = some (acc + cs.flatten.length - 1) := by
  intro cs
  induction cs with
  | nil => intro acc h; exact absurd rfl h
  | cons c cs' ih =>
    intro acc _
    cases hcs : cs' with
    | nil => simp [endsOf]
    | cons c' cs'' =>
      subst hcs
      show ((acc + c.length - 1) :: endsOf (c' :: cs'') (acc + c.length)).getLast? = _
      rw [getLast?_cons_of_ne_nil _ _ (by show _ :: _ ≠ []; simp)]
      rw [ih (acc + c.length) (by simp)]
      have hflat : ((c :: c' :: cs'').flatten).length
          = c.length + ((c' :: cs'').flatten).length := by
        simp
      rw [hflat]
      congr 1
      omega

theorem splitByEnds_endsOf : ∀ (cs : List (List Point)) (acc : Nat),
    (∀ c ∈ cs, c ≠ []) → splitByEnds (endsOf cs acc) acc cs.flatten = cs := by
  intro cs
  induction cs with
  | nil => intro acc _; rfl
  | cons c cs' ih =>
    intro acc h
    have hc : c ≠ [] := h c (List.mem_cons_self _ _)
    have hlen : 1 ≤ c.length := List.length_pos.mpr hc
    show (List.take (acc + c.length - 1 + 1 - acc) (c ++ cs'.flatten))
        :: splitByEnds (endsOf cs' (acc + c.length)) (acc + c.length - 1 + 1)
          (List.drop (acc + c.length - 1 + 1 - acc) (c ++ cs'.flatten)) = c :: cs'
    have h1 : acc + c.length - 1 + 1 = acc + c.length := by omega
    have h2 : acc + c.length - 1 + 1 - acc = c.length := by omega
    rw [h2, h1, List.take_left, List.drop_left]
    rw [ih (acc + c.length) (fun c' hc' => h c' (List.mem_cons_of_mem _ hc'))]

theorem contours_nil_of_flatten_nil :
    ∀ (cs : List (List Point)), (∀ c ∈ cs, c ≠ []) → cs.flatten = [] → cs = [] := by
  intro cs h hf
  cases cs with
  | nil => rfl
  | cons c cs' =>
    rw [List.flatten_cons, List.append_eq_nil] at hf
    exact absurd hf.1 (h c (List.mem_cons_self _ _))

theorem encPoints_overlap (ps : List Point) (ov : Bool) (prev : Int × Int)
    (hne : ps ≠ []) :
    (match ((encPoints ov prev ps).1).head? with
      | none => false
      | some f => f.testBit 6) = ov := by
  cases ps with
  | nil => exact absurd rfl hne
  | cons p ps' =>
    rw [encPoints_cons]
    simp [mkFlag_testBit6]

/-- Decoding inverts the canonical encoder on its whole domain. -/
theorem glyphDecodeO_encodeSimpleBytes (g : Glyph) (h : canEncodeSimple g) :
    glyphDecodeO (encodeSimpleBytes g) = some (g, []) := by
  obtain ⟨h1, h2, h3, h4, h5, h6, hxMin, hxMax, hyMin, hyMax, hdx, hdy⟩ := h
  unfold encodeSimpleBytes glyphDecodeO
  simp only [List.append_assoc]
  rw [readU16_enc]
  simp only [Option.bind_eq_bind, Option.some_bind]
  rw [readI16_enc _ _ hxMin]
  simp only [Option.some_bind]
  rw [readI16_enc _ _ hyMin]
  simp only [Option.some_bind]
  rw [readI16_enc _ _ hxMax]
  simp only [Option.some_bind]
  rw [readI16_enc _ _ hyMax]
  simp only [Option.some_bind]
  have hnc : intOfU16 g.contours.length = (g.contours.length : Int) := by
    unfold intOfU16
    rw [if_pos h4]
  rw [hnc, if_neg (by omega)]
  unfold decodeSimpleBody
  rw [← endsOf_length g.contours 0, readU16List_enc]
  simp only [Option.bind_eq_bind, Option.some_bind]
  rw [readU16_enc]
  simp only [Option.some_bind]
  rw [readBytes_append]
  simp only [Option.some_bind]
  cases hcs : g.contours with
  | nil =>
    have hov : g.overlap = false := h3 hcs
    rw [show ([] : List (List Point)).flatten = ([] : List Point) from rfl]
    simp only [encPoints]
    rw [show endsOf [] 0 = ([] : List Nat) from rfl]
    simp only [List.getLast?_nil, List.nil_append, List.append_nil]
    rw [readFlags_zero]
    simp only [Option.some_bind, readDeltas, accumulate, mkPoints, splitByEnds,
      List.head?_nil]
    have hg : ({ contours := [], components := [], overlap := false
                 instructions := g.instructions, xMin := g.xMin, xMax := g.xMax
                 yMin := g.yMin, yMax := g.yMax } : Glyph) = g := by
      rcases g with ⟨gc, gco, gov, gi, gxn, gxx, gyn, gyx⟩
      dsimp only at hcs h1 hov ⊢
      rw [hcs, h1, hov]
    rw [hg]
  | cons c cs' =>
    rw [← hcs]
    have hcne : g.contours ≠ [] := by rw [hcs]; simp
    have hflatne : g.contours.flatten ≠ [] := by
      intro hf
      exact hcne (contours_nil_of_flatten_nil g.contours h2 hf)
    have hflen : 1 ≤ g.contours.flatten.length := by
      cases hg : g.contours.flatten with
      | nil => exact absurd hg hflatne
      | cons q qs => simp
    rw [endsOf_getLast? g.contours 0 hcne]
    have hnp : 0 + g.contours.flatten.length - 1 + 1 = g.contours.flatten.length := by
      omega
    simp only [hnp]
    rw [show g.contours.flatten.length = (g.contours.flatten).length from rfl]
    rw [readFlags_enc g.contours.flatten g.overlap (0, 0)]
    simp only [Option.some_bind]
    rw [readDeltas_x_enc g.contours.flatten (0, 0) g.overlap _ hdx]
    simp only [Option.some_bind]
    rw [show (encPoints g.overlap (0, 0) g.contours.flatten).2.2
        = (encPoints g.overlap (0, 0) g.contours.flatten).2.2 ++ [] from
      (List.append_nil _).symm]
    rw [readDeltas_y_enc g.contours.flatten (0, 0) g.overlap [] hdy]
    simp only [Option.some_bind]
    rw [accumulate_deltas, accumulate_deltas, mkPoints_enc, splitByEnds_endsOf _ 0 h2]
    rw [encPoints_overlap g.contours.flatten g.overlap (0, 0) hflatne]
    have hg : ({ contours := g.contours, components := [], overlap := g.overlap
                 instructions := g.instructions, xMin := g.xMin, xMax := g.xMax
                 yMin := g.yMin, yMax := g.yMax } : Glyph) = g := by
      rcases g with ⟨gc, gco, gov, gi, gxn, gxx, gyn, gyx⟩
      dsimp only at h1 ⊢
      rw [h1]
    rw [hg]

/-- C1: for every byte string produced by the canonical simple-glyph
encoder, decoding yields a glyph (consuming the whole string) whose
re-encoding reproduces the original bytes exactly. -/
theorem simple_glyph_encode_decode_encode (g : Glyph) (bs : List Nat)
    (h : glyphEncode g = some bs) :
    ∃ gr, glyphDecodeO bs = some gr ∧ gr.2 = [] ∧ glyphEncode gr.1 = some bs := by
  unfold glyphEncode at h
  split at h
  · rename_i hcan
    injection h with h
    subst h
    exact ⟨(g, []), glyphDecodeO_encodeSimpleBytes g hcan, rfl, by
      unfold glyphEncode
      rw [if_pos hcan]⟩
  · exact Option.noConfusion h

/-- The concrete simple glyph of the C1 witness: one open triangle-ish
contour exercising the same-, short- and long-delta forms. -/
def w1glyph : Glyph :=
  { contours := [[⟨20, 0, true⟩, ⟨220, 10, false⟩, ⟨-300, 10, true⟩]]
    components := [], overlap := false, instructions := [7, 9]
    xMin := -300, xMax := 220, yMin := 0, yMax := 10 }

/-- Witness for C1: the concrete glyph's canonical encoding decodes back
to a glyph that re-encodes to the same bytes. -/
theorem simple_glyph_encode_decode_encode_witness :
    ∃ gr, glyphDecodeO (encodeSimpleBytes w1glyph) = some gr ∧ gr.2 = [] ∧
      glyphEncode gr.1 = some (encodeSimpleBytes w1glyph) :=
  simple_glyph_encode_decode_encode w1glyph (encodeSimpleBytes w1glyph)
    (by unfold glyphEncode; rw [if_pos (by decide)])

/-! ## The `gvar` 16-bit offset doubling -/

/-- C9 (code bug): with header flag bit 0 clear, a stored 16-bit offset
of `0x8000` decodes to `0` — the doubling `(x * 2)` is performed in
16-bit arithmetic and wraps (it panics in debug builds) — whereas the
specified value, twice the stored offset as an unbounded integer, is
`65536`. -/
theorem gvar_u16_offset_doubling_wraps :
    gvarDataOffsets 0 [0x8000] = [0] ∧ (2 * 0x8000 : Nat) = 65536 ∧ (0 : Nat) ≠ 65536 := by
  refine ⟨?_, rfl, by decide⟩
  decide

end Glyf
